import Mathlib

/-!
Verification of the configuration model of the thinkube-ai-integration
extension: name normalization, markdown codecs for commands, skills and
agents, hook matcher-group maintenance, permission merging, and the
configuration service's mutation and notification behaviour. JavaScript
strings are modelled as `List Char`, the service's file system as explicit
association lists, and every operation as a pure function.
-/

abbrev Str := List Char

/-- ASCII part of the whitespace class removed by `String.prototype.trim`. -/
def jsWhite (c : Char) : Bool :=
  c = ' ' || c = '\t' || c = '\n' || c = '\r' || c = '\x0b' || c = '\x0c'

/-- Model of `String.prototype.trim`. -/
def jsTrim (s : Str) : Str :=
  ((s.dropWhile jsWhite).reverse.dropWhile jsWhite).reverse

/-- Model of `String.prototype.toLowerCase` on one character (ASCII fold). -/
def jsCharToLower (c : Char) : Char :=
  if 65 ≤ c.toNat ∧ c.toNat ≤ 90 then Char.ofNat (c.toNat + 32) else c

/-- Model of `String.prototype.toLowerCase`. -/
def jsToLower (s : Str) : Str := s.map jsCharToLower

/-- Characters matched by the class `[a-z0-9-]` used by the normalizers. -/
def allowedChar (c : Char) : Bool :=
  decide ((97 ≤ c.toNat ∧ c.toNat ≤ 122) ∨ (48 ≤ c.toNat ∧ c.toNat ≤ 57) ∨ c.toNat = 45)

/-- `replace(/[^a-z0-9-]/g, '-')`. -/
def replaceDisallowed (s : Str) : Str := s.map fun c => if allowedChar c then c else '-'

/-- The second replace of the normalizers (global regex of one-or-more
hyphens, replacement a single hyphen): each maximal hyphen run becomes one. -/
def collapseHyphens : Str → Str
  | [] => []
  | c :: rest =>
    let r := collapseHyphens rest
    if c = '-' ∧ r.head? = some '-' then r else c :: r

/-- `normalizeSkillName` (Skill model): lowercase, then replace every
character outside `[a-z0-9-]` by a hyphen, then collapse hyphen runs. -/
def normalizeSkillName (s : Str) : Str := collapseHyphens (replaceDisallowed (jsToLower s))

/-- `normalizeAgentName` (Agent model): same body as `normalizeSkillName`. -/
def normalizeAgentName (s : Str) : Str := collapseHyphens (replaceDisallowed (jsToLower s))

/-- `name.startsWith('/') ? name.slice(1) : name`. -/
def stripLeadSlash (s : Str) : Str := if s.head? = some '/' then s.tail else s

/-- `normalizeCommandName` (Command model): removes one leading slash, then the
same lowercase / replace / collapse pipeline. -/
def normalizeCommandName (s : Str) : Str :=
  collapseHyphens (replaceDisallowed (jsToLower (stripLeadSlash s)))

/-- The spec's wording of the shared naming rule, written as a single
left-to-right pass remembering whether the previous emitted character was a
hyphen: case-fold, map characters outside `[a-z0-9-]` to `'-'`, collapse runs. -/
def specNormalizeAux : Bool → Str → Str
  | _, [] => []
  | prevHyphen, c :: rest =>
    if (if allowedChar (jsCharToLower c) then jsCharToLower c else '-') = '-' then
      if prevHyphen then specNormalizeAux true rest
      else '-' :: specNormalizeAux true rest
    else
      (if allowedChar (jsCharToLower c) then jsCharToLower c else '-') :: specNormalizeAux false rest

/-- The naming rule exactly as the spec states it. -/
def specNormalize (s : Str) : Str := specNormalizeAux false s

/-- Left-to-right run collapsing, parameterized by whether a hyphen was just
emitted; used to relate `specNormalize` to `collapseHyphens`. -/
def leftCollapse : Bool → Str → Str
  | _, [] => []
  | prevHyphen, c :: rest =>
    if c = '-' then
      if prevHyphen then leftCollapse true rest
      else '-' :: leftCollapse true rest
    else c :: leftCollapse false rest

/-- Drop one leading hyphen if present. -/
def dropLeadHyphen (s : Str) : Str := if s.head? = some '-' then s.tail else s

-- ===== basic lemmas about the normalization pipeline =====

theorem mem_collapseHyphens {x : Char} : ∀ {t : Str}, x ∈ collapseHyphens t → x ∈ t := by
  intro t
  induction t with
  | nil => simp [collapseHyphens]
  | cons c rest ih =>
    simp only [collapseHyphens]
    by_cases h : c = '-' ∧ (collapseHyphens rest).head? = some '-'
    · rw [if_pos h]
      intro hx
      exact List.mem_cons_of_mem _ (ih hx)
    · rw [if_neg h]
      intro hx
      rcases List.mem_cons.mp hx with h1 | h2
      · exact List.mem_cons.mpr (Or.inl h1)
      · exact List.mem_cons_of_mem _ (ih h2)

theorem mem_replaceDisallowed_allowed {x : Char} {s : Str}
    (hx : x ∈ replaceDisallowed s) : allowedChar x = true := by
  rcases List.mem_map.mp hx with ⟨c, _, hc⟩
  by_cases h : allowedChar c = true
  · rw [if_pos h] at hc
    rw [← hc]
    exact h
  · rw [if_neg h] at hc
    rw [← hc]
    decide

theorem jsCharToLower_allowed {x : Char} (h : allowedChar x = true) :
    jsCharToLower x = x := by
  have h2 := of_decide_eq_true h
  unfold jsCharToLower
  rw [if_neg]
  omega

theorem replaceDisallowed_allowed {x : Char} (h : allowedChar x = true) :
    (if allowedChar x then x else '-') = x := by rw [if_pos h]

theorem map_fix {α : Type} {f : α → α} : ∀ {l : List α}, (∀ x ∈ l, f x = x) → l.map f = l := by
  intro l
  induction l with
  | nil => simp
  | cons c rest ih =>
    intro h
    simp only [List.map_cons]
    rw [h c (List.mem_cons_self c rest), ih fun x hx => h x (List.mem_cons_of_mem _ hx)]

theorem collapseHyphens_idem : ∀ t : Str, collapseHyphens (collapseHyphens t) = collapseHyphens t := by
  intro t
  induction t with
  | nil => simp [collapseHyphens]
  | cons c rest ih =>
    simp only [collapseHyphens]
    by_cases h : c = '-' ∧ (collapseHyphens rest).head? = some '-'
    · rw [if_pos h]
      exact ih
    · rw [if_neg h]
      show collapseHyphens (c :: collapseHyphens rest) = c :: collapseHyphens rest
      simp only [collapseHyphens, ih]
      rw [if_neg h]

/-- Every character of a normalized skill name is in `[a-z0-9-]`. -/
theorem normalizeSkillName_allowed {x : Char} {s : Str}
    (hx : x ∈ normalizeSkillName s) : allowedChar x = true :=
  mem_replaceDisallowed_allowed (mem_collapseHyphens hx)

theorem normalizeSkillName_fixedpoint (s : Str) :
    normalizeSkillName (normalizeSkillName s) = normalizeSkillName s := by
  unfold normalizeSkillName
  set t := collapseHyphens (replaceDisallowed (jsToLower s)) with ht
  have hall : ∀ x ∈ t, allowedChar x = true := by
    intro x hx
    exact mem_replaceDisallowed_allowed (mem_collapseHyphens hx)
  have h1 : jsToLower t = t := map_fix fun x hx => jsCharToLower_allowed (hall x hx)
  have h2 : replaceDisallowed t = t := map_fix fun x hx => replaceDisallowed_allowed (hall x hx)
  rw [h1, h2, ht, collapseHyphens_idem]

theorem normalizeCommandName_skill_eq {s : Str} (h : s.head? ≠ some '/') :
    normalizeCommandName s = normalizeSkillName s := by
  unfold normalizeCommandName normalizeSkillName stripLeadSlash
  rw [if_neg h]

theorem dropLeadHyphen_of_ne {l : Str} (h : l.head? ≠ some '-') : dropLeadHyphen l = l :=
  if_neg h

theorem dropLeadHyphen_cons {r : Str} : dropLeadHyphen ('-' :: r) = r := by
  simp [dropLeadHyphen]

theorem leftCollapse_collapse : ∀ t : Str,
    leftCollapse false t = collapseHyphens t ∧
    leftCollapse true t = dropLeadHyphen (collapseHyphens t) := by
  intro t
  induction t with
  | nil => exact ⟨rfl, rfl⟩
  | cons c rest ih =>
    obtain ⟨ihf, iht⟩ := ih
    by_cases hc : c = '-'
    · subst hc
      by_cases hh : (collapseHyphens rest).head? = some '-'
      · obtain ⟨r, hr⟩ : ∃ r, collapseHyphens rest = '-' :: r := by
          cases hcr : collapseHyphens rest with
          | nil => rw [hcr] at hh; simp at hh
          | cons a r =>
            rw [hcr] at hh
            simp only [List.head?_cons, Option.some.injEq] at hh
            exact ⟨r, by rw [hh]⟩
        constructor
        · show (if ('-' : Char) = '-' then
              (if false then leftCollapse true rest else '-' :: leftCollapse true rest)
              else '-' :: leftCollapse false rest) = _
          rw [if_pos rfl]
          simp only [Bool.false_eq_true, if_false]
          show '-' :: leftCollapse true rest = collapseHyphens ('-' :: rest)
          rw [iht, hr, dropLeadHyphen_cons]
          show '-' :: r = collapseHyphens ('-' :: rest)
          simp only [collapseHyphens]
          rw [if_pos ⟨trivial, by rw [hr]; rfl⟩, hr]
        · show (if ('-' : Char) = '-' then
              (if true then leftCollapse true rest else '-' :: leftCollapse true rest)
              else '-' :: leftCollapse false rest) = _
          rw [if_pos rfl]
          simp only [if_true]
          rw [iht]
          show dropLeadHyphen (collapseHyphens rest) = dropLeadHyphen (collapseHyphens ('-' :: rest))
          simp only [collapseHyphens]
          rw [if_pos ⟨trivial, hh⟩]
      · constructor
        · show (if ('-' : Char) = '-' then
              (if false then leftCollapse true rest else '-' :: leftCollapse true rest)
              else '-' :: leftCollapse false rest) = _
          rw [if_pos rfl]
          simp only [Bool.false_eq_true, if_false]
          rw [iht, dropLeadHyphen_of_ne hh]
          show '-' :: collapseHyphens rest = collapseHyphens ('-' :: rest)
          simp only [collapseHyphens]
          rw [if_neg fun hand => hh hand.2]
        · show (if ('-' : Char) = '-' then
              (if true then leftCollapse true rest else '-' :: leftCollapse true rest)
              else '-' :: leftCollapse false rest) = _
          rw [if_pos rfl]
          simp only [if_true]
          rw [iht]
          show dropLeadHyphen (collapseHyphens rest) = dropLeadHyphen (collapseHyphens ('-' :: rest))
          simp only [collapseHyphens]
          rw [if_neg fun hand => hh hand.2, dropLeadHyphen_of_ne hh, dropLeadHyphen_cons]
    · have hcol : collapseHyphens (c :: rest) = c :: collapseHyphens rest := by
        simp only [collapseHyphens]
        rw [if_neg fun hand => hc hand.1]
      constructor
      · show (if c = '-' then
              (if false then leftCollapse true rest else '-' :: leftCollapse true rest)
              else c :: leftCollapse false rest) = _
        rw [if_neg hc, ihf, hcol]
      · show (if c = '-' then
              (if true then leftCollapse true rest else '-' :: leftCollapse true rest)
              else c :: leftCollapse false rest) = _
        rw [if_neg hc, ihf, hcol, dropLeadHyphen_of_ne]
        rw [List.head?_cons]
        exact fun h2 => hc (Option.some.inj h2)

theorem specNormalizeAux_leftCollapse : ∀ (s : Str) (b : Bool),
    specNormalizeAux b s = leftCollapse b (replaceDisallowed (jsToLower s)) := by
  intro s
  induction s with
  | nil => intro b; rfl
  | cons c rest ih =>
    intro b
    have hexp : replaceDisallowed (jsToLower (c :: rest)) =
        (if allowedChar (jsCharToLower c) then jsCharToLower c else '-') ::
          replaceDisallowed (jsToLower rest) := by
      simp [jsToLower, replaceDisallowed]
    rw [hexp]
    show specNormalizeAux b (c :: rest) = _
    simp only [specNormalizeAux, leftCollapse, ih]

theorem specNormalize_eq_skill (s : Str) : specNormalize s = normalizeSkillName s := by
  rw [specNormalize, specNormalizeAux_leftCollapse, (leftCollapse_collapse _).1]
  rfl

theorem normalizeAgent_eq_skill (s : Str) : normalizeAgentName s = normalizeSkillName s := rfl

theorem normalizeCommand_eq_skill_strip (s : Str) :
    normalizeCommandName s = normalizeSkillName (stripLeadSlash s) := rfl

theorem normalizeCommandName_fixedpoint (s : Str) :
    normalizeCommandName (normalizeCommandName s) = normalizeCommandName s := by
  have hh : (normalizeCommandName s).head? ≠ some '/' := by
    intro h
    have hmem : '/' ∈ normalizeCommandName s := by
      cases hcs : normalizeCommandName s with
      | nil => rw [hcs] at h; simp at h
      | cons a r =>
        rw [hcs] at h
        simp only [List.head?_cons, Option.some.injEq] at h
        rw [h]
        exact List.mem_cons_self _ _
    have : allowedChar '/' = true := by
      have := @mem_collapseHyphens _ (replaceDisallowed (jsToLower (stripLeadSlash s))) hmem
      exact mem_replaceDisallowed_allowed this
    simp [allowedChar] at this
  rw [normalizeCommandName_skill_eq hh, normalizeCommand_eq_skill_strip s,
    normalizeSkillName_fixedpoint]

/-- C4 counterexample: on the input "/foo" the Command normalizer returns
"foo" while the Skill and Agent normalizers (and the spec's single stated
rule) return "-foo"; so the three normalizers are not all equal to the
stated rule on every input. -/
theorem C4_counterexample :
    normalizeCommandName ('/' :: 'f' :: 'o' :: 'o' :: []) = ('f' :: 'o' :: 'o' :: []) ∧
    normalizeSkillName ('/' :: 'f' :: 'o' :: 'o' :: []) = ('-' :: 'f' :: 'o' :: 'o' :: []) ∧
    normalizeAgentName ('/' :: 'f' :: 'o' :: 'o' :: []) = ('-' :: 'f' :: 'o' :: 'o' :: []) ∧
    specNormalize ('/' :: 'f' :: 'o' :: 'o' :: []) = ('-' :: 'f' :: 'o' :: 'o' :: []) ∧
    ('f' :: 'o' :: 'o' :: ([] : Str)) ≠ ('-' :: 'f' :: 'o' :: 'o' :: []) := by
  refine ⟨by decide, by decide, by decide, by decide, by decide⟩

/-- C4 (amended): the Skill and Agent normalizers are one single rule —
lowercase, map characters outside `[a-z0-9-]` to a hyphen, collapse hyphen
runs — while the Command normalizer first strips one leading slash and then
applies that same rule, so it agrees with the others exactly on inputs that
do not start with a slash. -/
theorem C4_normalization_shared_rule :
    (∀ s : Str, normalizeAgentName s = normalizeSkillName s) ∧
    (∀ s : Str, normalizeSkillName s = specNormalize s) ∧
    (∀ s : Str, normalizeCommandName s = normalizeSkillName (stripLeadSlash s)) ∧
    (∀ s : Str, s.head? ≠ some '/' → normalizeCommandName s = normalizeSkillName s) :=
  ⟨normalizeAgent_eq_skill, fun s => (specNormalize_eq_skill s).symm,
    normalizeCommand_eq_skill_strip, fun _ h => normalizeCommandName_skill_eq h⟩

theorem C4_normalization_shared_rule_witness :
    normalizeCommandName ('a' :: 'b' :: []) = normalizeSkillName ('a' :: 'b' :: []) :=
  C4_normalization_shared_rule.2.2.2 ('a' :: 'b' :: []) (by decide)

/-- C9: name normalization is idempotent — for every string, each of the
three normalizers applied twice gives the same result as applied once. -/
theorem C9_normalize_idempotent : ∀ s : Str,
    normalizeCommandName (normalizeCommandName s) = normalizeCommandName s ∧
    normalizeSkillName (normalizeSkillName s) = normalizeSkillName s ∧
    normalizeAgentName (normalizeAgentName s) = normalizeAgentName s :=
  fun s => ⟨normalizeCommandName_fixedpoint s, normalizeSkillName_fixedpoint s,
    normalizeSkillName_fixedpoint s⟩

-- ===== generic string machinery used by the markdown codecs =====

/-- `startsWithL p s`: `p` is a prefix of `s`. -/
def startsWithL : Str → Str → Bool
  | [], _ => true
  | _ :: _, [] => false
  | p :: ps, c :: cs => p = c && startsWithL ps cs

/-- Split `s` at the first occurrence of `d` (lazy regex search): returns the
part before the occurrence and the part after it. -/
def splitFirst (d : Str) : Str → Option (Str × Str)
  | [] => if startsWithL d [] then some ([], []) else none
  | c :: rest =>
    if startsWithL d (c :: rest) then some ([], (c :: rest).drop d.length)
    else (splitFirst d rest).map fun pr => (c :: pr.1, pr.2)
termination_by structural s => s

/-- The two cases of `splitFirst` share this unfolding. -/
theorem splitFirst_eq (d s : Str) : splitFirst d s =
    if startsWithL d s then some ([], s.drop d.length)
    else
      match s with
      | [] => none
      | c :: rest => (splitFirst d rest).map fun pr => (c :: pr.1, pr.2) := by
  cases s with
  | nil =>
    show (if startsWithL d [] then some (([] : Str), ([] : Str)) else none) = _
    by_cases h : startsWithL d [] = true
    · rw [if_pos h, if_pos h, List.drop_nil]
    · rw [if_neg (by simpa using h), if_neg (by simpa using h)]
  | cons c rest => rfl

/-- `String.prototype.split(sep)` for a one-character separator. -/
def splitOnChar (sep : Char) : Str → List Str
  | [] => [[]]
  | c :: rest =>
    match splitOnChar sep rest with
    | [] => [[c]]
    | l :: ls => if c = sep then [] :: l :: ls else (c :: l) :: ls

/-- `Array.prototype.join('\n')`. -/
def joinNl : List Str → Str
  | [] => []
  | [l] => l
  | l :: ls => l ++ '\n' :: joinNl ls

/-- `Array.prototype.join(', ')`. -/
def joinCommaSp : List Str → Str
  | [] => []
  | [t] => t
  | t :: ts => t ++ ',' :: ' ' :: joinCommaSp ts

/-- Value for a key in a JS object built by successive assignments: the last
assignment wins. -/
def lookupLast (key : Str) : List (Str × Str) → Option Str
  | [] => none
  | (k, v) :: rest =>
    match lookupLast key rest with
    | some r => some r
    | none => if k = key then some v else none

/-- JS `x || d` for an optional string: empty string and undefined are falsy. -/
def jsOr (v : Option Str) (d : Str) : Str :=
  match v with
  | some s => if s = [] then d else s
  | none => d

/-- `s.replace(pat, '')`: removes the first occurrence of `pat`, if any. -/
def removeFirst (pat s : Str) : Str :=
  match splitFirst pat s with
  | some (pre, post) => pre ++ post
  | none => s

def mdExt : Str := ".md".toList

/-- `filePath.split('/').pop()`: the last path component. -/
def lastPart (p : Str) : Str := (splitOnChar '/' p).getLastD []

/-- `filePath.split('/').pop()?.replace('.md', '') || ''`. -/
def fileStem (p : Str) : Str := removeFirst mdExt (lastPart p)

/-- `filePath.split('/').slice(-2, -1)[0] || ''`: the next-to-last path
component, or the empty string when there is none. -/
def parentPart (p : Str) : Str :=
  match (splitOnChar '/' p).reverse with
  | _ :: q :: _ => q
  | _ => []

-- ===== the frontmatter grammar shared by the three artifact codecs =====

def fmMark : Str := "---".toList
def openMark : Str := fmMark ++ ['\n']
def fmDelim : Str := '\n' :: fmMark ++ ['\n']

/-- The regex match at the top of the three parse functions: the text must
start with a `---` line; the header is everything up to the first subsequent
`---` line, the body everything after it. -/
def parseFrontmatter (text : Str) : Option (Str × Str) :=
  if startsWithL openMark text then splitFirst fmDelim (text.drop openMark.length)
  else none

/-- One `key: value` header line: split at the first colon, require a
non-empty key part, trim both sides. -/
def parseHeaderLine (line : Str) : Option (Str × Str) :=
  match splitFirst (':' :: []) line with
  | some (k, v) => if k = [] then none else some (jsTrim k, jsTrim v)
  | none => none

/-- The metadata record accumulated from the header lines. -/
def buildMeta (fm : Str) : List (Str × Str) :=
  (splitOnChar '\n' fm).filterMap parseHeaderLine

/-- A `key: value` line as emitted by the encoders. -/
def headerLine (k v : Str) : Str := k ++ ':' :: ' ' :: v

def kName : Str := "name".toList
def kDescription : Str := "description".toList
def kArgHint : Str := "argument-hint".toList
def kTools : Str := "tools".toList
def kModel : Str := "model".toList
def inheritStr : Str := "inherit".toList

-- ===== Command / Skill / Agent records and codecs =====

structure Command where
  name : Str
  description : Str
  argumentHint : Option Str
  content : Str
  filePath : Str
deriving DecidableEq, Repr

structure Skill where
  name : Str
  description : Str
  tools : List Str
  model : Str
  content : Str
  filePath : Str
deriving DecidableEq, Repr

structure Agent where
  name : Str
  description : Str
  tools : List Str
  model : Str
  content : Str
  filePath : Str
deriving DecidableEq, Repr

/-- `commandToMarkdown`: frontmatter block followed by the content verbatim;
the argument-hint line is emitted only when the field is truthy. -/
def commandToMarkdown (c : Command) : Str :=
  joinNl ([fmMark, headerLine kDescription c.description]
    ++ (match c.argumentHint with
        | some h => if h = [] then [] else [headerLine kArgHint h]
        | none => [])
    ++ [fmMark, []]) ++ c.content

/-- `parseCommandMarkdown`: name always from the file stem, description
defaulted to empty, content trimmed. -/
def parseCommandMarkdown (text fp : Str) : Option Command :=
  match parseFrontmatter text with
  | none => none
  | some (fm, body) =>
    some { name := fileStem fp
         , description := (lookupLast kDescription (buildMeta fm)).getD []
         , argumentHint := lookupLast kArgHint (buildMeta fm)
         , content := jsTrim body
         , filePath := fp }

/-- `skillToMarkdown`: tools line only when the list is non-empty, model line
only when the model differs from the default `inherit`. -/
def skillToMarkdown (s : Skill) : Str :=
  joinNl ([fmMark, headerLine kName s.name, headerLine kDescription s.description]
    ++ (if s.tools = [] then [] else [headerLine kTools (joinCommaSp s.tools)])
    ++ (if s.model = inheritStr then [] else [headerLine kModel s.model])
    ++ [fmMark, []]) ++ s.content

/-- The tools field decoding shared by the Skill and Agent parsers:
split on commas and trim each entry when the header value is truthy. -/
def parseToolsField : Option Str → List Str
  | some s => if s = [] then [] else (splitOnChar ',' s).map jsTrim
  | none => []

/-- `parseSkillMarkdown`: name from the header if truthy, else the containing
directory; tools comma-split and trimmed; model defaulted to `inherit`. -/
def parseSkillMarkdown (text fp : Str) : Option Skill :=
  match parseFrontmatter text with
  | none => none
  | some (fm, body) =>
    some { name := jsOr (lookupLast kName (buildMeta fm)) (parentPart fp)
         , description := (lookupLast kDescription (buildMeta fm)).getD []
         , tools := parseToolsField (lookupLast kTools (buildMeta fm))
         , model := jsOr (lookupLast kModel (buildMeta fm)) inheritStr
         , content := jsTrim body
         , filePath := fp }

/-- `agentToMarkdown`: same layout as `skillToMarkdown`. -/
def agentToMarkdown (a : Agent) : Str :=
  joinNl ([fmMark, headerLine kName a.name, headerLine kDescription a.description]
    ++ (if a.tools = [] then [] else [headerLine kTools (joinCommaSp a.tools)])
    ++ (if a.model = inheritStr then [] else [headerLine kModel a.model])
    ++ [fmMark, []]) ++ a.content

/-- `parseAgentMarkdown`: like the skill parser, but the name falls back to
the file stem instead of the containing directory. -/
def parseAgentMarkdown (text fp : Str) : Option Agent :=
  match parseFrontmatter text with
  | none => none
  | some (fm, body) =>
    some { name := jsOr (lookupLast kName (buildMeta fm)) (fileStem fp)
         , description := (lookupLast kDescription (buildMeta fm)).getD []
         , tools := parseToolsField (lookupLast kTools (buildMeta fm))
         , model := jsOr (lookupLast kModel (buildMeta fm)) inheritStr
         , content := jsTrim body
         , filePath := fp }

-- ===== lemmas about the string machinery =====

theorem startsWithL_append : ∀ (p t : Str), startsWithL p (p ++ t) = true := by
  intro p
  induction p with
  | nil => intro t; rfl
  | cons c ps ih =>
    intro t
    show (decide (c = c) && startsWithL ps (ps ++ t)) = true
    rw [ih]
    simp

theorem dropLenAppend : ∀ (p t : Str), (p ++ t).drop p.length = t := by
  intro p
  induction p with
  | nil => intro t; rfl
  | cons c ps ih => intro t; exact ih t

theorem splitFirst_self (d t : Str) : splitFirst d (d ++ t) = some ([], t) := by
  rw [splitFirst_eq, if_pos (startsWithL_append d t), dropLenAppend]

theorem splitFirst_cons_skip {d : Str} {c : Char} {s : Str}
    (h : startsWithL d (c :: s) = false) :
    splitFirst d (c :: s) = (splitFirst d s).map fun pr => (c :: pr.1, pr.2) := by
  conv_lhs => rw [splitFirst_eq]
  rw [h]
  simp

theorem startsWithL_cons_ne {a c : Char} {d s : Str} (h : a ≠ c) :
    startsWithL (a :: d) (c :: s) = false := by
  show (decide (a = c) && startsWithL d s) = false
  rw [decide_eq_false h]
  simp

theorem splitFirst_append_left {a : Char} {d : Str} : ∀ {l : Str} (rest : Str), a ∉ l →
    splitFirst (a :: d) (l ++ rest) = (splitFirst (a :: d) rest).map fun pr => (l ++ pr.1, pr.2) := by
  intro l
  induction l with
  | nil =>
    intro rest _
    cases h : splitFirst (a :: d) rest with
    | none => simp [h]
    | some pr => simp [h]
  | cons x l ih =>
    intro rest hmem
    have hx : a ≠ x := fun he => hmem (he ▸ List.mem_cons_self x l)
    have hxl : a ∉ l := fun hm => hmem (List.mem_cons_of_mem _ hm)
    rw [List.cons_append, splitFirst_cons_skip (startsWithL_cons_ne hx), ih rest hxl]
    cases h : splitFirst (a :: d) rest with
    | none => simp
    | some pr => simp

theorem fmDelim_cons : fmDelim = '\n' :: ('-' :: '-' :: '-' :: '\n' :: []) := by decide

/-- `splitFirst_append_left` specialized to the frontmatter delimiter. -/
theorem splitFirst_fmDelim_line {l : Str} (rest : Str) (h : '\n' ∉ l) :
    splitFirst fmDelim (l ++ rest) = (splitFirst fmDelim rest).map fun pr => (l ++ pr.1, pr.2) :=
  splitFirst_append_left rest h

theorem splitFirst_fmDelim_nl {rest : Str} (h : ∀ c, rest.head? = some c → c ≠ '-') :
    splitFirst fmDelim ('\n' :: rest) =
      (splitFirst fmDelim rest).map fun pr => ('\n' :: pr.1, pr.2) := by
  have hs : startsWithL fmDelim ('\n' :: rest) = false := by
    rw [fmDelim_cons]
    show (decide ('\n' = '\n') && startsWithL ('-' :: '-' :: '-' :: '\n' :: []) rest) = false
    simp only [decide_eq_true_eq, Bool.true_and, decide_True]
    cases rest with
    | nil => rfl
    | cons c t =>
      have : c ≠ '-' := h c rfl
      exact startsWithL_cons_ne fun he => this he.symm
  rw [splitFirst_cons_skip hs]

theorem joinNl_cons {l : Str} {ls : List Str} (h : ls ≠ []) :
    joinNl (l :: ls) = l ++ '\n' :: joinNl ls := by
  cases ls with
  | nil => exact absurd rfl h
  | cons a t => rfl

theorem joinNl_append_two (a b : Str) : ∀ (lines : List Str), lines ≠ [] →
    joinNl (lines ++ [a, b]) = joinNl lines ++ '\n' :: a ++ '\n' :: b := by
  intro lines
  induction lines with
  | nil => intro h; exact absurd rfl h
  | cons l ls ih =>
    intro _
    cases hls : ls with
    | nil => simp [joinNl]
    | cons x t =>
      rw [List.cons_append, joinNl_cons (by simp), joinNl_cons (by simp [hls]), ← hls,
        ih (by simp [hls])]
      simp

theorem head_ne_hyphen_of_good {l : Str} (h : ∃ c t, l = c :: t ∧ c ≠ '-') :
    ∀ c, (l ++ fmDelim ++ []).head? = some c → c ≠ '-' := by
  obtain ⟨c0, t0, hl, hc0⟩ := h
  intro c hc
  rw [hl] at hc
  simp only [List.cons_append, List.head?_cons, Option.some.injEq] at hc
  rw [← hc]
  exact hc0

theorem splitFirst_fm_core (content : Str) : ∀ (lines : List Str), lines ≠ [] →
    (∀ l ∈ lines, '\n' ∉ l) →
    (∀ l ∈ lines, ∃ c t, l = c :: t ∧ c ≠ '-') →
    splitFirst fmDelim (joinNl lines ++ (fmDelim ++ content)) = some (joinNl lines, content) := by
  intro lines
  induction lines with
  | nil => intro h; exact absurd rfl h
  | cons l ls ih =>
    intro _ hnl hgood
    have hlnl : '\n' ∉ l := hnl l (List.mem_cons_self l ls)
    cases hls : ls with
    | nil =>
      show splitFirst fmDelim (joinNl [l] ++ (fmDelim ++ content)) = some (joinNl [l], content)
      show splitFirst fmDelim (l ++ (fmDelim ++ content)) = some (l, content)
      rw [splitFirst_fmDelim_line (fmDelim ++ content) hlnl, splitFirst_self]
      simp
    | cons x t =>
      rw [← hls]
      have hlsne : ls ≠ [] := by simp [hls]
      rw [joinNl_cons hlsne]
      have hd : ∀ c, (joinNl ls ++ (fmDelim ++ content)).head? = some c → c ≠ '-' := by
        intro c hc
        obtain ⟨c0, t0, hx, hc0⟩ := hgood x (by simp [hls])
        have hjoin : joinNl ls = x ++ '\n' :: joinNl t ∨ joinNl ls = x := by
          cases t with
          | nil => right; rw [hls]; rfl
          | cons u v => left; rw [hls, joinNl_cons (by simp)]
        rcases hjoin with hj | hj <;>
          · rw [hj, hx] at hc
            simp only [List.cons_append, List.head?_cons, Option.some.injEq] at hc
            rw [← hc]
            exact hc0
      have := ih hlsne (fun a ha => hnl a (List.mem_cons_of_mem _ ha))
        (fun a ha => hgood a (List.mem_cons_of_mem _ ha))
      rw [List.append_assoc l ('\n' :: joinNl ls) (fmDelim ++ content)]
      rw [splitFirst_fmDelim_line (('\n' :: joinNl ls) ++ (fmDelim ++ content)) hlnl]
      show (splitFirst fmDelim ('\n' :: (joinNl ls ++ (fmDelim ++ content)))).map
          (fun pr => (l ++ pr.1, pr.2)) = _
      rw [splitFirst_fmDelim_nl hd, this]
      simp

theorem parse_pipeline (lines : List Str) (content : Str)
    (h1 : lines ≠ [])
    (h2 : ∀ l ∈ lines, '\n' ∉ l)
    (h3 : ∀ l ∈ lines, ∃ c t, l = c :: t ∧ c ≠ '-') :
    parseFrontmatter (joinNl (fmMark :: lines ++ [fmMark, []]) ++ content)
      = some (joinNl lines, content) := by
  have hshape : joinNl (fmMark :: lines ++ [fmMark, []]) ++ content
      = openMark ++ (joinNl lines ++ (fmDelim ++ content)) := by
    rw [List.cons_append, joinNl_cons (by simp [h1] : lines ++ [fmMark, []] ≠ []),
      joinNl_append_two _ _ lines h1]
    show (fmMark ++ '\n' :: (joinNl lines ++ '\n' :: fmMark ++ '\n' :: [])) ++ content
        = (fmMark ++ ['\n']) ++ (joinNl lines ++ (('\n' :: fmMark ++ ['\n']) ++ content))
    simp
  rw [hshape]
  unfold parseFrontmatter
  rw [startsWithL_append, if_pos rfl, dropLenAppend]
  exact splitFirst_fm_core content lines h1 h2 h3

-- ===== splitOnChar and header-line lemmas =====

theorem splitOnChar_ne_nil {sep : Char} : ∀ {s : Str}, splitOnChar sep s ≠ [] := by
  intro s
  induction s with
  | nil => simp [splitOnChar]
  | cons c rest ih =>
    simp only [splitOnChar]
    cases h : splitOnChar sep rest with
    | nil => simp
    | cons l ls =>
      by_cases hc : c = sep
      · simp [hc]
      · simp [hc]

theorem splitOnChar_no_sep {sep : Char} : ∀ {l : Str}, sep ∉ l → splitOnChar sep l = [l] := by
  intro l
  induction l with
  | nil => intro _; rfl
  | cons c rest ih =>
    intro h
    have hc : c ≠ sep := fun he => h (he ▸ List.mem_cons_self c rest)
    have hrest : sep ∉ rest := fun hm => h (List.mem_cons_of_mem _ hm)
    simp only [splitOnChar, ih hrest]
    simp [hc]

theorem splitOnChar_append {sep : Char} : ∀ {l : Str} (rest : Str), sep ∉ l →
    splitOnChar sep (l ++ sep :: rest) = l :: splitOnChar sep rest := by
  intro l
  induction l with
  | nil =>
    intro rest _
    show splitOnChar sep (sep :: rest) = [] :: splitOnChar sep rest
    simp only [splitOnChar]
    cases h : splitOnChar sep rest with
    | nil => exact absurd h splitOnChar_ne_nil
    | cons a t => simp
  | cons c l ih =>
    intro rest hmem
    have hc : c ≠ sep := fun he => hmem (he ▸ List.mem_cons_self c l)
    have hl : sep ∉ l := fun hm => hmem (List.mem_cons_of_mem _ hm)
    show splitOnChar sep (c :: (l ++ sep :: rest)) = (c :: l) :: splitOnChar sep rest
    simp only [splitOnChar, ih rest hl]
    simp [hc]

theorem splitOnChar_joinNl : ∀ (lines : List Str), lines ≠ [] →
    (∀ l ∈ lines, '\n' ∉ l) → splitOnChar '\n' (joinNl lines) = lines := by
  intro lines
  induction lines with
  | nil => intro h; exact absurd rfl h
  | cons l ls ih =>
    intro _ hnl
    cases hls : ls with
    | nil => exact splitOnChar_no_sep (hnl l (List.mem_cons_self l ls))
    | cons x t =>
      rw [← hls, joinNl_cons (by simp [hls]),
        splitOnChar_append (joinNl ls) (hnl l (List.mem_cons_self l ls)),
        ih (by simp [hls]) fun a ha => hnl a (List.mem_cons_of_mem _ ha)]

-- ===== jsTrim lemmas =====

theorem jsTrim_cons_white {c : Char} {v : Str} (h : jsWhite c = true) :
    jsTrim (c :: v) = jsTrim v := by
  unfold jsTrim
  rw [List.dropWhile_cons_of_pos h]

theorem dropWhile_id_of_head {p : Char → Bool} {s : Str}
    (h : ∀ c, s.head? = some c → p c = false) : s.dropWhile p = s := by
  cases s with
  | nil => rfl
  | cons c t => exact List.dropWhile_cons_of_neg (by rw [h c rfl]; simp)

theorem jsTrim_id {s : Str}
    (h1 : ∀ c, s.head? = some c → jsWhite c = false)
    (h2 : ∀ c, s.getLast? = some c → jsWhite c = false) : jsTrim s = s := by
  unfold jsTrim
  rw [dropWhile_id_of_head h1, dropWhile_id_of_head (by
    intro c hc
    rw [List.head?_reverse] at hc
    exact h2 c hc), List.reverse_reverse]

theorem jsTrim_space {v : Str} : jsTrim (' ' :: v) = jsTrim v :=
  jsTrim_cons_white (by decide)

theorem length_dropWhile_leq (p : Char → Bool) : ∀ l : Str, (l.dropWhile p).length ≤ l.length := by
  intro l
  induction l with
  | nil => simp
  | cons c t ih =>
    by_cases h : p c = true
    · rw [List.dropWhile_cons_of_pos h]
      exact Nat.le_succ_of_le ih
    · rw [List.dropWhile_cons_of_neg (by simp [h])]

theorem head_not_white_of_trim_id {s : Str} (h : jsTrim s = s) :
    ∀ c, s.head? = some c → jsWhite c = false := by
  intro c hc
  by_contra hw
  have hw2 : jsWhite c = true := by
    cases hb : jsWhite c with
    | false => exact absurd hb hw
    | true => rfl
  cases s with
  | nil => simp at hc
  | cons a t =>
    simp only [List.head?_cons, Option.some.injEq] at hc
    subst hc
    rw [jsTrim_cons_white hw2] at h
    have hlen : (jsTrim t).length ≤ t.length := by
      unfold jsTrim
      rw [List.length_reverse]
      calc ((t.dropWhile jsWhite).reverse.dropWhile jsWhite).length
          ≤ (t.dropWhile jsWhite).reverse.length := length_dropWhile_leq _ _
        _ = (t.dropWhile jsWhite).length := List.length_reverse _
        _ ≤ t.length := length_dropWhile_leq _ _
    rw [h] at hlen
    simp at hlen

theorem dropWhile_head_white_lt {s : Str} {c : Char}
    (h : s.head? = some c) (hw : jsWhite c = true) :
    (s.dropWhile jsWhite).length < s.length := by
  cases s with
  | nil => simp at h
  | cons a t =>
    simp only [List.head?_cons, Option.some.injEq] at h
    subst h
    rw [List.dropWhile_cons_of_pos hw]
    exact Nat.lt_succ_of_le (length_dropWhile_leq _ _)

theorem jsTrim_getLast_white_lt {s : Str} {c : Char}
    (h : s.getLast? = some c) (hw : jsWhite c = true) :
    (jsTrim s).length < s.length := by
  have hsne : s ≠ [] := by
    intro he
    rw [he] at h
    simp at h
  unfold jsTrim
  cases hA : s.dropWhile jsWhite with
  | nil =>
    simp only [List.reverse_nil, List.dropWhile_nil, List.length_nil]
    exact List.length_pos.mpr hsne
  | cons a t =>
    rw [← hA]
    have hsuf : s.dropWhile jsWhite <:+ s := List.dropWhile_suffix jsWhite
    have hne : s.dropWhile jsWhite ≠ [] := by rw [hA]; simp
    have hlast : (s.dropWhile jsWhite).getLast? = some c := by
      obtain ⟨pre, hpre⟩ := hsuf
      have happ : (pre ++ s.dropWhile jsWhite).getLast? = (s.dropWhile jsWhite).getLast? :=
        List.getLast?_append_of_ne_nil pre hne
      rw [hpre] at happ
      rw [← happ]
      exact h
    have hhead : (s.dropWhile jsWhite).reverse.head? = some c := by
      rw [List.head?_reverse]
      exact hlast
    calc ((s.dropWhile jsWhite).reverse.dropWhile jsWhite).reverse.length
        = ((s.dropWhile jsWhite).reverse.dropWhile jsWhite).length := List.length_reverse _
      _ < (s.dropWhile jsWhite).reverse.length := dropWhile_head_white_lt hhead hw
      _ = (s.dropWhile jsWhite).length := List.length_reverse _
      _ ≤ s.length := hsuf.length_le

theorem getLast_not_white_of_trim_id {s : Str} (h : jsTrim s = s) :
    ∀ c, s.getLast? = some c → jsWhite c = false := by
  intro c hc
  cases hb : jsWhite c with
  | false => rfl
  | true =>
    have := jsTrim_getLast_white_lt hc hb
    rw [h] at this
    exact absurd this (Nat.lt_irrefl _)

-- ===== header-line and metadata lemmas =====

theorem parseHeaderLine_encode {k v : Str} (hk1 : ':' ∉ k) (hk2 : k ≠ []) :
    parseHeaderLine (headerLine k v) = some (jsTrim k, jsTrim v) := by
  unfold parseHeaderLine headerLine
  rw [splitFirst_append_left (':' :: ' ' :: v) hk1]
  have hself : splitFirst (':' :: []) (':' :: ' ' :: v) = some ([], ' ' :: v) := by
    have := splitFirst_self (':' :: []) (' ' :: v)
    simpa using this
  rw [hself]
  simp [hk2, jsTrim_space]

theorem lookupLast_nil (key : Str) : lookupLast key [] = none := rfl

theorem lookupLast_cons_none {key k v : Str} {rest : List (Str × Str)}
    (h : lookupLast key rest = none) :
    lookupLast key ((k, v) :: rest) = if k = key then some v else none := by
  simp only [lookupLast, h]

theorem lookupLast_cons_some {key k v r : Str} {rest : List (Str × Str)}
    (h : lookupLast key rest = some r) :
    lookupLast key ((k, v) :: rest) = some r := by
  simp only [lookupLast, h]

theorem headerLine_not_nl {k v : Str} (hnk : '\n' ∉ k) (hnv : '\n' ∉ v) :
    '\n' ∉ headerLine k v := by
  unfold headerLine
  simp only [List.mem_append, List.mem_cons]
  intro h
  rcases h with h | h | h | h
  · exact hnk h
  · exact absurd h (by decide)
  · exact absurd h (by decide)
  · exact hnv h

theorem headerLine_shape {a : Char} {k2 v : Str} :
    headerLine (a :: k2) v = a :: (k2 ++ ':' :: ' ' :: v) := rfl

-- ===== tools join lemmas =====

theorem joinCommaSp_ne_nil {t : Str} (ht : t ≠ []) (ts : List Str) :
    joinCommaSp (t :: ts) ≠ [] := by
  cases ts with
  | nil => exact ht
  | cons u us =>
    show t ++ ',' :: ' ' :: joinCommaSp (u :: us) ≠ []
    simp

theorem joinCommaSp_not_nl : ∀ {ts : List Str}, (∀ t ∈ ts, '\n' ∉ t) → '\n' ∉ joinCommaSp ts := by
  intro ts
  induction ts with
  | nil => intro _; simp [joinCommaSp]
  | cons t us ih =>
    intro h
    cases us with
    | nil => exact h t (List.mem_cons_self t [])
    | cons u vs =>
      show '\n' ∉ t ++ ',' :: ' ' :: joinCommaSp (u :: vs)
      simp only [List.mem_append, List.mem_cons]
      intro hc
      rcases hc with hc | hc | hc | hc
      · exact h t (List.mem_cons_self _ _) hc
      · exact absurd hc (by decide)
      · exact absurd hc (by decide)
      · exact ih (fun x hx => h x (List.mem_cons_of_mem _ hx)) hc

theorem splitOnChar_joinCommaSp : ∀ (ts : List Str) (t : Str), ',' ∉ t →
    (∀ x ∈ ts, ',' ∉ x) →
    (splitOnChar ',' (joinCommaSp (t :: ts))).map jsTrim = jsTrim t :: ts.map jsTrim := by
  intro ts
  induction ts with
  | nil =>
    intro t ht _
    show (splitOnChar ',' t).map jsTrim = jsTrim t :: []
    rw [splitOnChar_no_sep ht]
    rfl
  | cons u us ih =>
    intro t ht hts
    show (splitOnChar ',' (t ++ ',' :: ' ' :: joinCommaSp (u :: us))).map jsTrim = _
    rw [splitOnChar_append (' ' :: joinCommaSp (u :: us)) ht]
    have ihu := ih u (hts u (List.mem_cons_self _ _))
      (fun x hx => hts x (List.mem_cons_of_mem _ hx))
    cases hx : splitOnChar ',' (joinCommaSp (u :: us)) with
    | nil => exact absurd hx splitOnChar_ne_nil
    | cons l ls =>
      have hsp : splitOnChar ',' (' ' :: joinCommaSp (u :: us)) = (' ' :: l) :: ls := by
        simp only [splitOnChar, hx]
        simp
      rw [hsp]
      rw [hx] at ihu
      simp only [List.map_cons] at ihu ⊢
      rw [jsTrim_space]
      rw [List.cons.injEq] at ihu
      rw [ihu.1, ihu.2]

theorem getLast?_cons_ne_nil {a : Char} {l : Str} (h : l ≠ []) :
    (a :: l).getLast? = l.getLast? := by
  cases l with
  | nil => exact absurd rfl h
  | cons b t => exact List.getLast?_cons_cons

theorem headerLine_good_shape {k v : Str} (hk : k ≠ []) (hkh : k.head? ≠ some '-') :
    ∃ c t, headerLine k v = c :: t ∧ c ≠ '-' := by
  cases k with
  | nil => exact absurd rfl hk
  | cons a k2 =>
    exact ⟨a, k2 ++ ':' :: ' ' :: v, rfl, fun he => hkh (by rw [List.head?_cons, he])⟩

theorem filterMap_headerLines : ∀ (kvs : List (Str × Str)),
    (∀ kv ∈ kvs, ':' ∉ kv.1 ∧ kv.1 ≠ []) →
    ((kvs.map fun kv => headerLine kv.1 kv.2).filterMap parseHeaderLine)
      = kvs.map fun kv => (jsTrim kv.1, jsTrim kv.2) := by
  intro kvs
  induction kvs with
  | nil => intro _; rfl
  | cons kv rest ih =>
    intro h
    obtain ⟨h1, h2⟩ := h kv (List.mem_cons_self _ _)
    rw [List.map_cons, List.filterMap_cons, parseHeaderLine_encode h1 h2,
      ih fun x hx => h x (List.mem_cons_of_mem _ hx), List.map_cons]

theorem buildMeta_headerLines (kvs : List (Str × Str)) (hne : kvs ≠ [])
    (hprop : ∀ kv ∈ kvs, ':' ∉ kv.1 ∧ kv.1 ≠ [] ∧ '\n' ∉ kv.1 ∧ '\n' ∉ kv.2) :
    buildMeta (joinNl (kvs.map fun kv => headerLine kv.1 kv.2))
      = kvs.map fun kv => (jsTrim kv.1, jsTrim kv.2) := by
  unfold buildMeta
  rw [splitOnChar_joinNl _ (by simp [hne]) (by
    intro l hl
    obtain ⟨kv, hkv, hrfl⟩ := List.mem_map.mp hl
    rw [← hrfl]
    exact headerLine_not_nl (hprop kv hkv).2.2.1 (hprop kv hkv).2.2.2)]
  exact filterMap_headerLines kvs fun kv hkv => ⟨(hprop kv hkv).1, (hprop kv hkv).2.1⟩

theorem lookupLast_append_some {key r : Str} {l1 l2 : List (Str × Str)}
    (h : lookupLast key l2 = some r) : lookupLast key (l1 ++ l2) = some r := by
  induction l1 with
  | nil => exact h
  | cons kv rest ih => exact lookupLast_cons_some ih

theorem lookupLast_append_none {key : Str} {l1 l2 : List (Str × Str)}
    (h : lookupLast key l2 = none) : lookupLast key (l1 ++ l2) = lookupLast key l1 := by
  induction l1 with
  | nil => exact h
  | cons kv rest ih =>
    show lookupLast key (kv :: (rest ++ l2)) = _
    simp only [lookupLast, ih]

theorem lookupLast_opt_none {key k v : Str} {P : Prop} [Decidable P] (h : k ≠ key) :
    lookupLast key (if P then [] else [(k, v)]) = none := by
  by_cases hp : P
  · rw [if_pos hp]
    rfl
  · rw [if_neg hp, lookupLast_cons_none (lookupLast_nil _), if_neg h]

-- ===== validity predicates for round-trippable records =====

/-- A header value that survives the line-oriented codec: single-line and
already trimmed. -/
def lineClean (s : Str) : Prop := '\n' ∉ s ∧ jsTrim s = s

instance (s : Str) : Decidable (lineClean s) :=
  inferInstanceAs (Decidable (_ ∧ _))

/-- The optional argument hint round-trips when absent, or non-empty (JS
truthiness) and clean. -/
def hintOk : Option Str → Prop
  | some h => h ≠ [] ∧ lineClean h
  | none => True

instance : ∀ o : Option Str, Decidable (hintOk o)
  | some _ => inferInstanceAs (Decidable (_ ∧ _))
  | none => inferInstanceAs (Decidable True)

/-- A valid Command record: clean description, truthy-or-absent clean hint,
trimmed content, and a name that agrees with the file stem of its path. -/
def ValidCommand (c : Command) : Prop :=
  lineClean c.description ∧ hintOk c.argumentHint ∧ jsTrim c.content = c.content ∧
    c.name = fileStem c.filePath

/-- A tool entry that survives the comma-joined encoding. -/
def toolOk (t : Str) : Prop := t ≠ [] ∧ ',' ∉ t ∧ lineClean t

instance (t : Str) : Decidable (toolOk t) :=
  inferInstanceAs (Decidable (_ ∧ _ ∧ _))

/-- The model field ranges over the fixed enumeration of the source type. -/
def modelOk (m : Str) : Prop :=
  m = inheritStr ∨ m = "haiku".toList ∨ m = "sonnet".toList ∨ m = "opus".toList

instance (m : Str) : Decidable (modelOk m) :=
  inferInstanceAs (Decidable (_ ∨ _ ∨ _ ∨ _))

/-- A valid Skill record: truthy clean name, clean description, well-formed
tools, enumerated model, trimmed content. -/
def ValidSkill (s : Skill) : Prop :=
  s.name ≠ [] ∧ lineClean s.name ∧ lineClean s.description ∧ (∀ t ∈ s.tools, toolOk t) ∧
    modelOk s.model ∧ jsTrim s.content = s.content

/-- A valid Agent record: same conditions as for a Skill. -/
def ValidAgent (a : Agent) : Prop :=
  a.name ≠ [] ∧ lineClean a.name ∧ lineClean a.description ∧ (∀ t ∈ a.tools, toolOk t) ∧
    modelOk a.model ∧ jsTrim a.content = a.content

instance (c : Command) : Decidable (ValidCommand c) :=
  inferInstanceAs (Decidable (_ ∧ _ ∧ _ ∧ _))

instance (s : Skill) : Decidable (ValidSkill s) :=
  inferInstanceAs (Decidable (_ ∧ _ ∧ _ ∧ _ ∧ _ ∧ _))

instance (a : Agent) : Decidable (ValidAgent a) :=
  inferInstanceAs (Decidable (_ ∧ _ ∧ _ ∧ _ ∧ _ ∧ _))

-- ===== round-trip for Command =====

theorem parseCommand_roundtrip : ∀ c : Command, ValidCommand c →
    parseCommandMarkdown (commandToMarkdown c) c.filePath = some c := by
  intro c hv
  obtain ⟨n, d, ah, co, fp⟩ := c
  obtain ⟨⟨hdn, hdt⟩, hhint, hct, hname⟩ := hv
  dsimp only at hdn hdt hhint hct hname
  cases ah with
  | none =>
    have hnl : ∀ l ∈ [headerLine kDescription d], '\n' ∉ l := by
      intro l hl
      simp only [List.mem_singleton] at hl
      subst hl
      exact headerLine_not_nl (by decide) hdn
    have hgood : ∀ l ∈ [headerLine kDescription d], ∃ ch t, l = ch :: t ∧ ch ≠ '-' := by
      intro l hl
      simp only [List.mem_singleton] at hl
      subst hl
      exact headerLine_good_shape (by decide) (by decide)
    have hparse := parse_pipeline [headerLine kDescription d] co (by simp) hnl hgood
    have hmeta : buildMeta (joinNl [headerLine kDescription d]) = [(kDescription, d)] := by
      have hb := buildMeta_headerLines [(kDescription, d)] (by simp)
        (fun kv hkv => by
          simp only [List.mem_singleton] at hkv
          subst hkv
          exact ⟨(by decide : ':' ∉ kDescription), (by decide : kDescription ≠ []),
            (by decide : '\n' ∉ kDescription), hdn⟩)
      simp only [List.map_cons, List.map_nil] at hb
      rw [hb, hdt, show jsTrim kDescription = kDescription from by decide]
    show parseCommandMarkdown (commandToMarkdown ⟨n, d, none, co, fp⟩) fp
        = some ⟨n, d, none, co, fp⟩
    have henc : commandToMarkdown ⟨n, d, none, co, fp⟩
        = joinNl (fmMark :: [headerLine kDescription d] ++ [fmMark, []]) ++ co := rfl
    rw [henc]
    unfold parseCommandMarkdown
    rw [hparse]
    show some (Command.mk (fileStem fp)
        ((lookupLast kDescription (buildMeta (joinNl [headerLine kDescription d]))).getD [])
        (lookupLast kArgHint (buildMeta (joinNl [headerLine kDescription d])))
        (jsTrim co) fp) = some (Command.mk n d none co fp)
    rw [hmeta, hct, ← hname,
      lookupLast_cons_none (lookupLast_nil kDescription),
      lookupLast_cons_none (lookupLast_nil kArgHint),
      if_pos rfl, if_neg (show ¬ kDescription = kArgHint from by decide)]
    rfl
  | some h =>
    obtain ⟨hh1, hhn, hht⟩ : h ≠ [] ∧ '\n' ∉ h ∧ jsTrim h = h := by
      obtain ⟨a, b⟩ := hhint
      exact ⟨a, b.1, b.2⟩
    have hnl : ∀ l ∈ [headerLine kDescription d, headerLine kArgHint h], '\n' ∉ l := by
      intro l hl
      simp only [List.mem_cons, List.not_mem_nil, or_false] at hl
      rcases hl with rfl | rfl
      · exact headerLine_not_nl (by decide) hdn
      · exact headerLine_not_nl (by decide) hhn
    have hgood : ∀ l ∈ [headerLine kDescription d, headerLine kArgHint h],
        ∃ ch t, l = ch :: t ∧ ch ≠ '-' := by
      intro l hl
      simp only [List.mem_cons, List.not_mem_nil, or_false] at hl
      rcases hl with rfl | rfl
      · exact headerLine_good_shape (by decide) (by decide)
      · exact headerLine_good_shape (by decide) (by decide)
    have hparse := parse_pipeline [headerLine kDescription d, headerLine kArgHint h] co
      (by simp) hnl hgood
    have hmeta : buildMeta (joinNl [headerLine kDescription d, headerLine kArgHint h])
        = [(kDescription, d), (kArgHint, h)] := by
      have hb := buildMeta_headerLines [(kDescription, d), (kArgHint, h)] (by simp)
        (fun kv hkv => by
          simp only [List.mem_cons, List.not_mem_nil, or_false] at hkv
          rcases hkv with rfl | rfl
          · exact ⟨(by decide : ':' ∉ kDescription), (by decide : kDescription ≠ []),
              (by decide : '\n' ∉ kDescription), hdn⟩
          · exact ⟨(by decide : ':' ∉ kArgHint), (by decide : kArgHint ≠ []),
              (by decide : '\n' ∉ kArgHint), hhn⟩)
      simp only [List.map_cons, List.map_nil] at hb
      rw [hb, hdt, hht, show jsTrim kDescription = kDescription from by decide,
        show jsTrim kArgHint = kArgHint from by decide]
    have hinner : lookupLast kDescription [(kArgHint, h)] = none := by
      rw [lookupLast_cons_none (lookupLast_nil _), if_neg (by decide)]
    have hl1 : lookupLast kDescription [(kDescription, d), (kArgHint, h)] = some d := by
      rw [lookupLast_cons_none hinner, if_pos rfl]
    have hinner2 : lookupLast kArgHint [(kArgHint, h)] = some h := by
      rw [lookupLast_cons_none (lookupLast_nil _), if_pos rfl]
    have hl2 : lookupLast kArgHint [(kDescription, d), (kArgHint, h)] = some h :=
      lookupLast_cons_some hinner2
    show parseCommandMarkdown (commandToMarkdown ⟨n, d, some h, co, fp⟩) fp
        = some ⟨n, d, some h, co, fp⟩
    have henc : commandToMarkdown ⟨n, d, some h, co, fp⟩
        = joinNl (fmMark :: [headerLine kDescription d, headerLine kArgHint h]
            ++ [fmMark, []]) ++ co := by
      show joinNl ([fmMark, headerLine kDescription d]
          ++ (if h = [] then [] else [headerLine kArgHint h]) ++ [fmMark, []]) ++ co = _
      rw [if_neg hh1]
      rfl
    rw [henc]
    unfold parseCommandMarkdown
    rw [hparse]
    show some (Command.mk (fileStem fp)
        ((lookupLast kDescription (buildMeta (joinNl
          [headerLine kDescription d, headerLine kArgHint h]))).getD [])
        (lookupLast kArgHint (buildMeta (joinNl
          [headerLine kDescription d, headerLine kArgHint h])))
        (jsTrim co) fp) = some (Command.mk n d (some h) co fp)
    rw [hmeta, hl1, hl2, hct, ← hname]
    rfl

theorem joinCommaSp_head {t : Str} (ht : t ≠ []) (us : List Str) :
    (joinCommaSp (t :: us)).head? = t.head? := by
  cases us with
  | nil => rfl
  | cons u vs =>
    cases t with
    | nil => exact absurd rfl ht
    | cons c t2 => rfl

theorem joinCommaSp_getLast_mem : ∀ (us : List Str) (t : Str), t ≠ [] → (∀ x ∈ us, x ≠ []) →
    ∃ z, z ∈ t :: us ∧ (joinCommaSp (t :: us)).getLast? = z.getLast? ∧ z ≠ [] := by
  intro us
  induction us with
  | nil =>
    intro t ht _
    exact ⟨t, List.mem_cons_self _ _, rfl, ht⟩
  | cons u vs ih =>
    intro t ht hus
    obtain ⟨z, hz1, hz2, hz3⟩ := ih u (hus u (List.mem_cons_self _ _))
      fun x hx => hus x (List.mem_cons_of_mem _ hx)
    have hJ : joinCommaSp (u :: vs) ≠ [] := joinCommaSp_ne_nil (hus u (List.mem_cons_self _ _)) vs
    refine ⟨z, List.mem_cons_of_mem _ hz1, ?_, hz3⟩
    show (t ++ ',' :: ' ' :: joinCommaSp (u :: vs)).getLast? = _
    rw [List.getLast?_append_of_ne_nil t (by simp), getLast?_cons_ne_nil (by simp),
      getLast?_cons_ne_nil hJ, hz2]

theorem joinCommaSp_trim_id {ts : List Str} (hne : ts ≠ [])
    (h : ∀ x ∈ ts, x ≠ [] ∧ jsTrim x = x) : jsTrim (joinCommaSp ts) = joinCommaSp ts := by
  cases ts with
  | nil => exact absurd rfl hne
  | cons t us =>
    apply jsTrim_id
    · intro c hc
      rw [joinCommaSp_head (h t (List.mem_cons_self _ _)).1 us] at hc
      exact head_not_white_of_trim_id (h t (List.mem_cons_self _ _)).2 c hc
    · intro c hc
      obtain ⟨z, hz1, hz2, hz3⟩ := joinCommaSp_getLast_mem us t
        (h t (List.mem_cons_self _ _)).1 fun x hx => (h x (List.mem_cons_of_mem _ hx)).1
      rw [hz2] at hc
      exact getLast_not_white_of_trim_id (h z hz1).2 c hc

theorem modelOk_props {mv : Str} (hmv : modelOk mv) (hni : mv ≠ inheritStr) :
    mv ≠ [] ∧ '\n' ∉ mv ∧ jsTrim mv = mv := by
  rcases hmv with h | h | h | h
  · exact absurd h hni
  · subst h; exact ⟨by decide, by decide, by decide⟩
  · subst h; exact ⟨by decide, by decide, by decide⟩
  · subst h; exact ⟨by decide, by decide, by decide⟩

theorem lookup_one_eq {key k v : Str} (h : k = key) : lookupLast key [(k, v)] = some v := by
  rw [lookupLast_cons_none (lookupLast_nil _), if_pos h]

theorem lookup_one_ne {key k v : Str} (h : k ≠ key) : lookupLast key [(k, v)] = none := by
  rw [lookupLast_cons_none (lookupLast_nil _), if_neg h]

theorem lookup_cons_ne {key k v : Str} {rest : List (Str × Str)} (h : k ≠ key)
    (hr : lookupLast key rest = none) : lookupLast key ((k, v) :: rest) = none := by
  rw [lookupLast_cons_none hr, if_neg h]

theorem lookup_cons_eq {key k v : Str} {rest : List (Str × Str)} (h : k = key)
    (hr : lookupLast key rest = none) : lookupLast key ((k, v) :: rest) = some v := by
  rw [lookupLast_cons_none hr, if_pos h]

/-- The common frontmatter layout of the Skill and Agent encoders. -/
def skillLikeText (nm d : Str) (tools : List Str) (mv content : Str) : Str :=
  joinNl ([fmMark, headerLine kName nm, headerLine kDescription d]
    ++ (if tools = [] then [] else [headerLine kTools (joinCommaSp tools)])
    ++ (if mv = inheritStr then [] else [headerLine kModel mv])
    ++ [fmMark, []]) ++ content

theorem skillToMarkdown_eq (s : Skill) :
    skillToMarkdown s = skillLikeText s.name s.description s.tools s.model s.content := rfl

theorem agentToMarkdown_eq (a : Agent) :
    agentToMarkdown a = skillLikeText a.name a.description a.tools a.model a.content := rfl

theorem skillLikeText_parse (nm d : Str) (tools : List Str) (mv content : Str)
    (hnm1 : nm ≠ []) (hnmn : '\n' ∉ nm) (hnmt : jsTrim nm = nm)
    (hdn : '\n' ∉ d) (hdt : jsTrim d = d)
    (htools : ∀ t ∈ tools, t ≠ [] ∧ ',' ∉ t ∧ '\n' ∉ t ∧ jsTrim t = t)
    (hmv : modelOk mv) :
    ∃ fm : Str,
      parseFrontmatter (skillLikeText nm d tools mv content) = some (fm, content) ∧
      lookupLast kName (buildMeta fm) = some nm ∧
      lookupLast kDescription (buildMeta fm) = some d ∧
      lookupLast kTools (buildMeta fm)
        = (if tools = [] then none else some (joinCommaSp tools)) ∧
      lookupLast kModel (buildMeta fm) = (if mv = inheritStr then none else some mv) := by
  have htrimN : jsTrim kName = kName := by decide
  have htrimD : jsTrim kDescription = kDescription := by decide
  have htrimT : jsTrim kTools = kTools := by decide
  have htrimM : jsTrim kModel = kModel := by decide
  by_cases ht : tools = [] <;> by_cases hm : mv = inheritStr
  · -- no tools line, no model line
    have hmeta : buildMeta (joinNl [headerLine kName nm, headerLine kDescription d])
        = [(kName, nm), (kDescription, d)] := by
      have hb := buildMeta_headerLines [(kName, nm), (kDescription, d)] (by simp)
        (fun kv hkv => by
          simp only [List.mem_cons, List.not_mem_nil, or_false] at hkv
          rcases hkv with rfl | rfl
          · exact ⟨(by decide : ':' ∉ kName), (by decide : kName ≠ []),
              (by decide : '\n' ∉ kName), hnmn⟩
          · exact ⟨(by decide : ':' ∉ kDescription), (by decide : kDescription ≠ []),
              (by decide : '\n' ∉ kDescription), hdn⟩)
      simp only [List.map_cons, List.map_nil] at hb
      rw [hb, htrimN, htrimD, hnmt, hdt]
    refine ⟨joinNl [headerLine kName nm, headerLine kDescription d], ?_, ?_, ?_, ?_, ?_⟩
    · show parseFrontmatter (joinNl ([fmMark, headerLine kName nm, headerLine kDescription d]
          ++ (if tools = [] then [] else [headerLine kTools (joinCommaSp tools)])
          ++ (if mv = inheritStr then [] else [headerLine kModel mv])
          ++ [fmMark, []]) ++ content) = _
      rw [if_pos ht, if_pos hm]
      exact parse_pipeline [headerLine kName nm, headerLine kDescription d] content (by simp)
        (by
          intro l hl
          simp only [List.mem_cons, List.not_mem_nil, or_false] at hl
          rcases hl with rfl | rfl
          · exact headerLine_not_nl (by decide) hnmn
          · exact headerLine_not_nl (by decide) hdn)
        (by
          intro l hl
          simp only [List.mem_cons, List.not_mem_nil, or_false] at hl
          rcases hl with rfl | rfl
          · exact headerLine_good_shape (by decide) (by decide)
          · exact headerLine_good_shape (by decide) (by decide))
    · rw [hmeta]
      exact lookup_cons_eq rfl (lookup_one_ne (by decide))
    · rw [hmeta]
      exact lookupLast_cons_some (lookup_one_eq rfl)
    · rw [hmeta, if_pos ht]
      exact lookup_cons_ne (by decide) (lookup_one_ne (by decide))
    · rw [hmeta, if_pos hm]
      exact lookup_cons_ne (by decide) (lookup_one_ne (by decide))
  · -- no tools line, model line present
    obtain ⟨hmv1, hmvn, hmvt⟩ := modelOk_props hmv hm
    have hmeta : buildMeta (joinNl [headerLine kName nm, headerLine kDescription d,
        headerLine kModel mv]) = [(kName, nm), (kDescription, d), (kModel, mv)] := by
      have hb := buildMeta_headerLines [(kName, nm), (kDescription, d), (kModel, mv)] (by simp)
        (fun kv hkv => by
          simp only [List.mem_cons, List.not_mem_nil, or_false] at hkv
          rcases hkv with rfl | rfl | rfl
          · exact ⟨(by decide : ':' ∉ kName), (by decide : kName ≠ []),
              (by decide : '\n' ∉ kName), hnmn⟩
          · exact ⟨(by decide : ':' ∉ kDescription), (by decide : kDescription ≠ []),
              (by decide : '\n' ∉ kDescription), hdn⟩
          · exact ⟨(by decide : ':' ∉ kModel), (by decide : kModel ≠ []),
              (by decide : '\n' ∉ kModel), hmvn⟩)
      simp only [List.map_cons, List.map_nil] at hb
      rw [hb, htrimN, htrimD, htrimM, hnmt, hdt, hmvt]
    refine ⟨joinNl [headerLine kName nm, headerLine kDescription d, headerLine kModel mv],
      ?_, ?_, ?_, ?_, ?_⟩
    · show parseFrontmatter (joinNl ([fmMark, headerLine kName nm, headerLine kDescription d]
          ++ (if tools = [] then [] else [headerLine kTools (joinCommaSp tools)])
          ++ (if mv = inheritStr then [] else [headerLine kModel mv])
          ++ [fmMark, []]) ++ content) = _
      rw [if_pos ht, if_neg hm]
      exact parse_pipeline
        [headerLine kName nm, headerLine kDescription d, headerLine kModel mv] content (by simp)
        (by
          intro l hl
          simp only [List.mem_cons, List.not_mem_nil, or_false] at hl
          rcases hl with rfl | rfl | rfl
          · exact headerLine_not_nl (by decide) hnmn
          · exact headerLine_not_nl (by decide) hdn
          · exact headerLine_not_nl (by decide) hmvn)
        (by
          intro l hl
          simp only [List.mem_cons, List.not_mem_nil, or_false] at hl
          rcases hl with rfl | rfl | rfl
          · exact headerLine_good_shape (by decide) (by decide)
          · exact headerLine_good_shape (by decide) (by decide)
          · exact headerLine_good_shape (by decide) (by decide))
    · rw [hmeta]
      exact lookup_cons_eq rfl (lookup_cons_ne (by decide) (lookup_one_ne (by decide)))
    · rw [hmeta]
      exact lookupLast_cons_some (lookup_cons_eq rfl (lookup_one_ne (by decide)))
    · rw [hmeta, if_pos ht]
      exact lookup_cons_ne (by decide)
        (lookup_cons_ne (by decide) (lookup_one_ne (by decide)))
    · rw [hmeta, if_neg hm]
      exact lookupLast_cons_some (lookupLast_cons_some (lookup_one_eq rfl))
  · -- tools line present, no model line
    have htjt : jsTrim (joinCommaSp tools) = joinCommaSp tools :=
      joinCommaSp_trim_id ht fun x hx => ⟨(htools x hx).1, (htools x hx).2.2.2⟩
    have htjn : '\n' ∉ joinCommaSp tools :=
      joinCommaSp_not_nl fun x hx => (htools x hx).2.2.1
    have hmeta : buildMeta (joinNl [headerLine kName nm, headerLine kDescription d,
        headerLine kTools (joinCommaSp tools)])
        = [(kName, nm), (kDescription, d), (kTools, joinCommaSp tools)] := by
      have hb := buildMeta_headerLines
        [(kName, nm), (kDescription, d), (kTools, joinCommaSp tools)] (by simp)
        (fun kv hkv => by
          simp only [List.mem_cons, List.not_mem_nil, or_false] at hkv
          rcases hkv with rfl | rfl | rfl
          · exact ⟨(by decide : ':' ∉ kName), (by decide : kName ≠ []),
              (by decide : '\n' ∉ kName), hnmn⟩
          · exact ⟨(by decide : ':' ∉ kDescription), (by decide : kDescription ≠ []),
              (by decide : '\n' ∉ kDescription), hdn⟩
          · exact ⟨(by decide : ':' ∉ kTools), (by decide : kTools ≠ []),
              (by decide : '\n' ∉ kTools), htjn⟩)
      simp only [List.map_cons, List.map_nil] at hb
      rw [hb, htrimN, htrimD, htrimT, hnmt, hdt, htjt]
    refine ⟨joinNl [headerLine kName nm, headerLine kDescription d,
      headerLine kTools (joinCommaSp tools)], ?_, ?_, ?_, ?_, ?_⟩
    · show parseFrontmatter (joinNl ([fmMark, headerLine kName nm, headerLine kDescription d]
          ++ (if tools = [] then [] else [headerLine kTools (joinCommaSp tools)])
          ++ (if mv = inheritStr then [] else [headerLine kModel mv])
          ++ [fmMark, []]) ++ content) = _
      rw [if_neg ht, if_pos hm]
      exact parse_pipeline [headerLine kName nm, headerLine kDescription d,
        headerLine kTools (joinCommaSp tools)] content (by simp)
        (by
          intro l hl
          simp only [List.mem_cons, List.not_mem_nil, or_false] at hl
          rcases hl with rfl | rfl | rfl
          · exact headerLine_not_nl (by decide) hnmn
          · exact headerLine_not_nl (by decide) hdn
          · exact headerLine_not_nl (by decide) htjn)
        (by
          intro l hl
          simp only [List.mem_cons, List.not_mem_nil, or_false] at hl
          rcases hl with rfl | rfl | rfl
          · exact headerLine_good_shape (by decide) (by decide)
          · exact headerLine_good_shape (by decide) (by decide)
          · exact headerLine_good_shape (by decide) (by decide))
    · rw [hmeta]
      exact lookup_cons_eq rfl (lookup_cons_ne (by decide) (lookup_one_ne (by decide)))
    · rw [hmeta]
      exact lookupLast_cons_some (lookup_cons_eq rfl (lookup_one_ne (by decide)))
    · rw [hmeta, if_neg ht]
      exact lookupLast_cons_some (lookupLast_cons_some (lookup_one_eq rfl))
    · rw [hmeta, if_pos hm]
      exact lookup_cons_ne (by decide)
        (lookup_cons_ne (by decide) (lookup_one_ne (by decide)))
  · -- tools line and model line both present
    obtain ⟨hmv1, hmvn, hmvt⟩ := modelOk_props hmv hm
    have htjt : jsTrim (joinCommaSp tools) = joinCommaSp tools :=
      joinCommaSp_trim_id ht fun x hx => ⟨(htools x hx).1, (htools x hx).2.2.2⟩
    have htjn : '\n' ∉ joinCommaSp tools :=
      joinCommaSp_not_nl fun x hx => (htools x hx).2.2.1
    have hmeta : buildMeta (joinNl [headerLine kName nm, headerLine kDescription d,
        headerLine kTools (joinCommaSp tools), headerLine kModel mv])
        = [(kName, nm), (kDescription, d), (kTools, joinCommaSp tools), (kModel, mv)] := by
      have hb := buildMeta_headerLines
        [(kName, nm), (kDescription, d), (kTools, joinCommaSp tools), (kModel, mv)] (by simp)
        (fun kv hkv => by
          simp only [List.mem_cons, List.not_mem_nil, or_false] at hkv
          rcases hkv with rfl | rfl | rfl | rfl
          · exact ⟨(by decide : ':' ∉ kName), (by decide : kName ≠ []),
              (by decide : '\n' ∉ kName), hnmn⟩
          · exact ⟨(by decide : ':' ∉ kDescription), (by decide : kDescription ≠ []),
              (by decide : '\n' ∉ kDescription), hdn⟩
          · exact ⟨(by decide : ':' ∉ kTools), (by decide : kTools ≠ []),
              (by decide : '\n' ∉ kTools), htjn⟩
          · exact ⟨(by decide : ':' ∉ kModel), (by decide : kModel ≠ []),
              (by decide : '\n' ∉ kModel), hmvn⟩)
      simp only [List.map_cons, List.map_nil] at hb
      rw [hb, htrimN, htrimD, htrimT, htrimM, hnmt, hdt, htjt, hmvt]
    refine ⟨joinNl [headerLine kName nm, headerLine kDescription d,
      headerLine kTools (joinCommaSp tools), headerLine kModel mv], ?_, ?_, ?_, ?_, ?_⟩
    · show parseFrontmatter (joinNl ([fmMark, headerLine kName nm, headerLine kDescription d]
          ++ (if tools = [] then [] else [headerLine kTools (joinCommaSp tools)])
          ++ (if mv = inheritStr then [] else [headerLine kModel mv])
          ++ [fmMark, []]) ++ content) = _
      rw [if_neg ht, if_neg hm]
      exact parse_pipeline [headerLine kName nm, headerLine kDescription d,
        headerLine kTools (joinCommaSp tools), headerLine kModel mv] content (by simp)
        (by
          intro l hl
          simp only [List.mem_cons, List.not_mem_nil, or_false] at hl
          rcases hl with rfl | rfl | rfl | rfl
          · exact headerLine_not_nl (by decide) hnmn
          · exact headerLine_not_nl (by decide) hdn
          · exact headerLine_not_nl (by decide) htjn
          · exact headerLine_not_nl (by decide) hmvn)
        (by
          intro l hl
          simp only [List.mem_cons, List.not_mem_nil, or_false] at hl
          rcases hl with rfl | rfl | rfl | rfl
          · exact headerLine_good_shape (by decide) (by decide)
          · exact headerLine_good_shape (by decide) (by decide)
          · exact headerLine_good_shape (by decide) (by decide)
          · exact headerLine_good_shape (by decide) (by decide))
    · rw [hmeta]
      exact lookup_cons_eq rfl (lookup_cons_ne (by decide)
        (lookup_cons_ne (by decide) (lookup_one_ne (by decide))))
    · rw [hmeta]
      exact lookupLast_cons_some (lookup_cons_eq rfl
        (lookup_cons_ne (by decide) (lookup_one_ne (by decide))))
    · rw [hmeta, if_neg ht]
      exact lookupLast_cons_some (lookupLast_cons_some
        (lookup_cons_eq rfl (lookup_one_ne (by decide))))
    · rw [hmeta, if_neg hm]
      exact lookupLast_cons_some (lookupLast_cons_some (lookupLast_cons_some
        (lookup_one_eq rfl)))

theorem jsOr_some_ne {s dflt : Str} (h : s ≠ []) : jsOr (some s) dflt = s := by
  show (if s = [] then dflt else s) = s
  rw [if_neg h]

theorem parseSkill_roundtrip : ∀ s : Skill, ValidSkill s →
    parseSkillMarkdown (skillToMarkdown s) s.filePath = some s := by
  intro s hv
  obtain ⟨nm, d, tools, mv, co, fp⟩ := s
  obtain ⟨hnm1, ⟨hnmn, hnmt⟩, ⟨hdn, hdt⟩, htools, hmv, hct⟩ := hv
  dsimp only at hnm1 hnmn hnmt hdn hdt htools hmv hct
  have htools2 : ∀ t ∈ tools, t ≠ [] ∧ ',' ∉ t ∧ '\n' ∉ t ∧ jsTrim t = t := fun t htm =>
    ⟨(htools t htm).1, (htools t htm).2.1, (htools t htm).2.2.1, (htools t htm).2.2.2⟩
  obtain ⟨fm, hfm, hLname, hLdesc, hLtools, hLmodel⟩ :=
    skillLikeText_parse nm d tools mv co hnm1 hnmn hnmt hdn hdt htools2 hmv
  have hnameComp : jsOr (some nm) (parentPart fp) = nm := jsOr_some_ne hnm1
  have htoolsComp :
      parseToolsField (if tools = [] then none else some (joinCommaSp tools)) = tools := by
    by_cases ht : tools = []
    · rw [if_pos ht]
      exact ht.symm
    · rw [if_neg ht]
      cases tools with
      | nil => exact absurd rfl ht
      | cons t ts =>
        show (if joinCommaSp (t :: ts) = [] then []
            else (splitOnChar ',' (joinCommaSp (t :: ts))).map jsTrim) = t :: ts
        rw [if_neg (joinCommaSp_ne_nil (htools2 t (List.mem_cons_self _ _)).1 ts),
          splitOnChar_joinCommaSp ts t (htools2 t (List.mem_cons_self _ _)).2.1
            (fun x hx => (htools2 x (List.mem_cons_of_mem _ hx)).2.1),
          (htools2 t (List.mem_cons_self _ _)).2.2.2,
          map_fix fun x hx => (htools2 x (List.mem_cons_of_mem _ hx)).2.2.2]
  have hmodelComp : jsOr (if mv = inheritStr then none else some mv) inheritStr = mv := by
    by_cases hm : mv = inheritStr
    · rw [if_pos hm]
      exact hm.symm
    · rw [if_neg hm]
      exact jsOr_some_ne (modelOk_props hmv hm).1
  show parseSkillMarkdown (skillToMarkdown ⟨nm, d, tools, mv, co, fp⟩) fp
      = some ⟨nm, d, tools, mv, co, fp⟩
  rw [skillToMarkdown_eq]
  dsimp only
  unfold parseSkillMarkdown
  rw [hfm]
  show some (Skill.mk (jsOr (lookupLast kName (buildMeta fm)) (parentPart fp))
      ((lookupLast kDescription (buildMeta fm)).getD [])
      (parseToolsField (lookupLast kTools (buildMeta fm)))
      (jsOr (lookupLast kModel (buildMeta fm)) inheritStr)
      (jsTrim co) fp) = some (Skill.mk nm d tools mv co fp)
  rw [hLname, hnameComp, hLdesc, hLtools, htoolsComp, hLmodel, hmodelComp, hct]
  rfl

theorem parseAgent_roundtrip : ∀ a : Agent, ValidAgent a →
    parseAgentMarkdown (agentToMarkdown a) a.filePath = some a := by
  intro a hv
  obtain ⟨nm, d, tools, mv, co, fp⟩ := a
  obtain ⟨hnm1, ⟨hnmn, hnmt⟩, ⟨hdn, hdt⟩, htools, hmv, hct⟩ := hv
  dsimp only at hnm1 hnmn hnmt hdn hdt htools hmv hct
  have htools2 : ∀ t ∈ tools, t ≠ [] ∧ ',' ∉ t ∧ '\n' ∉ t ∧ jsTrim t = t := fun t htm =>
    ⟨(htools t htm).1, (htools t htm).2.1, (htools t htm).2.2.1, (htools t htm).2.2.2⟩
  obtain ⟨fm, hfm, hLname, hLdesc, hLtools, hLmodel⟩ :=
    skillLikeText_parse nm d tools mv co hnm1 hnmn hnmt hdn hdt htools2 hmv
  have hnameComp : jsOr (some nm) (fileStem fp) = nm := jsOr_some_ne hnm1
  have htoolsComp :
      parseToolsField (if tools = [] then none else some (joinCommaSp tools)) = tools := by
    by_cases ht : tools = []
    · rw [if_pos ht]
      exact ht.symm
    · rw [if_neg ht]
      cases tools with
      | nil => exact absurd rfl ht
      | cons t ts =>
        show (if joinCommaSp (t :: ts) = [] then []
            else (splitOnChar ',' (joinCommaSp (t :: ts))).map jsTrim) = t :: ts
        rw [if_neg (joinCommaSp_ne_nil (htools2 t (List.mem_cons_self _ _)).1 ts),
          splitOnChar_joinCommaSp ts t (htools2 t (List.mem_cons_self _ _)).2.1
            (fun x hx => (htools2 x (List.mem_cons_of_mem _ hx)).2.1),
          (htools2 t (List.mem_cons_self _ _)).2.2.2,
          map_fix fun x hx => (htools2 x (List.mem_cons_of_mem _ hx)).2.2.2]
  have hmodelComp : jsOr (if mv = inheritStr then none else some mv) inheritStr = mv := by
    by_cases hm : mv = inheritStr
    · rw [if_pos hm]
      exact hm.symm
    · rw [if_neg hm]
      exact jsOr_some_ne (modelOk_props hmv hm).1
  show parseAgentMarkdown (agentToMarkdown ⟨nm, d, tools, mv, co, fp⟩) fp
      = some ⟨nm, d, tools, mv, co, fp⟩
  rw [agentToMarkdown_eq]
  dsimp only
  unfold parseAgentMarkdown
  rw [hfm]
  show some (Agent.mk (jsOr (lookupLast kName (buildMeta fm)) (fileStem fp))
      ((lookupLast kDescription (buildMeta fm)).getD [])
      (parseToolsField (lookupLast kTools (buildMeta fm)))
      (jsOr (lookupLast kModel (buildMeta fm)) inheritStr)
      (jsTrim co) fp) = some (Agent.mk nm d tools mv co fp)
  rw [hLname, hnameComp, hLdesc, hLtools, htoolsComp, hLmodel, hmodelComp, hct]
  rfl

/-- C2: for every valid Command, Skill, or Agent record, decoding the
encoding at the record's own source location yields the record itself; in
particular a `model` equal to the default `inherit` is encoded with the key
omitted and decodes back to `inherit`, and the equivalence is on record
values, not on byte-identity of the text. -/
theorem C2_codec_roundtrip :
    (∀ c : Command, ValidCommand c →
        parseCommandMarkdown (commandToMarkdown c) c.filePath = some c) ∧
    (∀ s : Skill, ValidSkill s →
        parseSkillMarkdown (skillToMarkdown s) s.filePath = some s) ∧
    (∀ a : Agent, ValidAgent a →
        parseAgentMarkdown (agentToMarkdown a) a.filePath = some a) :=
  ⟨parseCommand_roundtrip, parseSkill_roundtrip, parseAgent_roundtrip⟩

theorem C2_codec_roundtrip_witness :
    parseCommandMarkdown (commandToMarkdown (Command.mk "foo".toList "Desc".toList
      (some "n".toList) "Body".toList "a/foo.md".toList)) "a/foo.md".toList
      = some (Command.mk "foo".toList "Desc".toList (some "n".toList) "Body".toList
        "a/foo.md".toList) ∧
    parseSkillMarkdown (skillToMarkdown (Skill.mk "sk".toList "d".toList ["Read".toList]
      "inherit".toList "x".toList "p/sk/SKILL.md".toList)) "p/sk/SKILL.md".toList
      = some (Skill.mk "sk".toList "d".toList ["Read".toList] "inherit".toList "x".toList
        "p/sk/SKILL.md".toList) ∧
    parseAgentMarkdown (agentToMarkdown (Agent.mk "ag".toList "d".toList [] "sonnet".toList
      "x".toList "q/ag.md".toList)) "q/ag.md".toList
      = some (Agent.mk "ag".toList "d".toList [] "sonnet".toList "x".toList
        "q/ag.md".toList) :=
  ⟨C2_codec_roundtrip.1 _ (by decide), C2_codec_roundtrip.2.1 _ (by decide),
    C2_codec_roundtrip.2.2 _ (by decide)⟩

-- ===== trimmed-content lemmas (C10) =====

theorem head?_dropWhile_not {p : Char → Bool} : ∀ (l : Str) {c : Char},
    (l.dropWhile p).head? = some c → p c = false := by
  intro l
  induction l with
  | nil => intro c h; simp at h
  | cons a t ih =>
    intro c h
    by_cases ha : p a = true
    · rw [List.dropWhile_cons_of_pos ha] at h
      exact ih h
    · rw [List.dropWhile_cons_of_neg (by simpa using ha)] at h
      simp only [List.head?_cons, Option.some.injEq] at h
      rw [← h]
      cases hb : p a with
      | false => rfl
      | true => exact absurd hb ha

theorem getLast?_dropWhile_of_ne_nil {p : Char → Bool} {l : Str}
    (h : l.dropWhile p ≠ []) : (l.dropWhile p).getLast? = l.getLast? := by
  have hsuf : l.dropWhile p <:+ l := List.dropWhile_suffix p
  obtain ⟨pre, hpre⟩ := hsuf
  have happ : (pre ++ l.dropWhile p).getLast? = (l.dropWhile p).getLast? :=
    List.getLast?_append_of_ne_nil pre h
  rw [hpre] at happ
  exact happ.symm

theorem jsTrim_head_nw (s : Str) : ∀ ch, (jsTrim s).head? = some ch → jsWhite ch = false := by
  intro ch h
  unfold jsTrim at h
  rw [List.head?_reverse] at h
  have hne : (s.dropWhile jsWhite).reverse.dropWhile jsWhite ≠ [] := by
    intro he
    rw [he] at h
    simp at h
  rw [getLast?_dropWhile_of_ne_nil hne, List.getLast?_reverse] at h
  exact head?_dropWhile_not _ h

theorem jsTrim_last_nw (s : Str) : ∀ ch, (jsTrim s).getLast? = some ch → jsWhite ch = false := by
  intro ch h
  unfold jsTrim at h
  rw [List.getLast?_reverse] at h
  exact head?_dropWhile_not _ h

theorem jsTrim_idem (s : Str) : jsTrim (jsTrim s) = jsTrim s :=
  jsTrim_id (jsTrim_head_nw s) (jsTrim_last_nw s)

/-- C10: whenever one of the three decoders accepts a text, the content
field of the returned record is the (trimmed) body, so it never begins or
ends with whitespace, regardless of the whitespace in the source text. -/
theorem C10_content_trimmed :
    (∀ text fp c, parseCommandMarkdown text fp = some c →
      jsTrim c.content = c.content ∧
      (∀ ch, c.content.head? = some ch → jsWhite ch = false) ∧
      (∀ ch, c.content.getLast? = some ch → jsWhite ch = false)) ∧
    (∀ text fp s, parseSkillMarkdown text fp = some s →
      jsTrim s.content = s.content ∧
      (∀ ch, s.content.head? = some ch → jsWhite ch = false) ∧
      (∀ ch, s.content.getLast? = some ch → jsWhite ch = false)) ∧
    (∀ text fp a, parseAgentMarkdown text fp = some a →
      jsTrim a.content = a.content ∧
      (∀ ch, a.content.head? = some ch → jsWhite ch = false) ∧
      (∀ ch, a.content.getLast? = some ch → jsWhite ch = false)) := by
  refine ⟨?_, ?_, ?_⟩
  · intro text fp c hp
    unfold parseCommandMarkdown at hp
    cases hfm : parseFrontmatter text with
    | none =>
      rw [hfm] at hp
      exact absurd hp (by simp)
    | some pr =>
      obtain ⟨fm, body⟩ := pr
      rw [hfm] at hp
      have hp2 : some (Command.mk (fileStem fp)
          ((lookupLast kDescription (buildMeta fm)).getD [])
          (lookupLast kArgHint (buildMeta fm)) (jsTrim body) fp) = some c := hp
      rw [← Option.some.inj hp2]
      exact ⟨jsTrim_idem body, jsTrim_head_nw body, jsTrim_last_nw body⟩
  · intro text fp s hp
    unfold parseSkillMarkdown at hp
    cases hfm : parseFrontmatter text with
    | none =>
      rw [hfm] at hp
      exact absurd hp (by simp)
    | some pr =>
      obtain ⟨fm, body⟩ := pr
      rw [hfm] at hp
      have hp2 : some (Skill.mk (jsOr (lookupLast kName (buildMeta fm)) (parentPart fp))
          ((lookupLast kDescription (buildMeta fm)).getD [])
          (parseToolsField (lookupLast kTools (buildMeta fm)))
          (jsOr (lookupLast kModel (buildMeta fm)) inheritStr)
          (jsTrim body) fp) = some s := hp
      rw [← Option.some.inj hp2]
      exact ⟨jsTrim_idem body, jsTrim_head_nw body, jsTrim_last_nw body⟩
  · intro text fp a hp
    unfold parseAgentMarkdown at hp
    cases hfm : parseFrontmatter text with
    | none =>
      rw [hfm] at hp
      exact absurd hp (by simp)
    | some pr =>
      obtain ⟨fm, body⟩ := pr
      rw [hfm] at hp
      have hp2 : some (Agent.mk (jsOr (lookupLast kName (buildMeta fm)) (fileStem fp))
          ((lookupLast kDescription (buildMeta fm)).getD [])
          (parseToolsField (lookupLast kTools (buildMeta fm)))
          (jsOr (lookupLast kModel (buildMeta fm)) inheritStr)
          (jsTrim body) fp) = some a := hp
      rw [← Option.some.inj hp2]
      exact ⟨jsTrim_idem body, jsTrim_head_nw body, jsTrim_last_nw body⟩

theorem C10_content_trimmed_witness :
    jsTrim (Command.mk "x".toList "d".toList none "hi".toList "a/x.md".toList).content
      = (Command.mk "x".toList "d".toList none "hi".toList "a/x.md".toList).content :=
  (C10_content_trimmed.1 "---\ndescription: d\n---\n  hi  ".toList "a/x.md".toList
    (Command.mk "x".toList "d".toList none "hi".toList "a/x.md".toList) (by decide)).1

/-- Observer for stating name-resolution claims: the raw header value a text
carries for a given key, when its frontmatter parses. -/
def headerValue (text key : Str) : Option Str :=
  match parseFrontmatter text with
  | some (fm, _) => lookupLast key (buildMeta fm)
  | none => none

/-- C5 counterexample: a text whose header carries the key `name` with an
empty value. Read literally, the claim says an Agent's (and a Skill's) name
is the header value whenever the key is present — here the empty string —
but the code treats the empty value as falsy and falls back to the file stem
(Agent) or the containing directory (Skill). -/
theorem C5_counterexample :
    headerValue "---\nname: \ndescription: d\n---\nx".toList kName = some [] ∧
    parseAgentMarkdown "---\nname: \ndescription: d\n---\nx".toList "dir/foo.md".toList
      = some (Agent.mk "foo".toList "d".toList [] inheritStr "x".toList
        "dir/foo.md".toList) ∧
    parseSkillMarkdown "---\nname: \ndescription: d\n---\nx".toList "p/sk/SKILL.md".toList
      = some (Skill.mk "sk".toList "d".toList [] inheritStr "x".toList
        "p/sk/SKILL.md".toList) ∧
    ("foo".toList ≠ ([] : Str)) ∧ ("sk".toList ≠ ([] : Str)) :=
  ⟨by decide, by decide, by decide, by decide, by decide⟩

/-- C5 (amended): name resolution on decode is artifact-kind-specific — a
Command's name is always the source file's stem (any `name` header key is
ignored); an Agent's name is the `name` header value when it is present and
non-empty, else the file stem; a Skill's name is the `name` header value
when present and non-empty, else the name of the containing directory. -/
theorem C5_name_resolution :
    (∀ text fp c, parseCommandMarkdown text fp = some c → c.name = fileStem fp) ∧
    (∀ text fp a, parseAgentMarkdown text fp = some a →
      (∀ v, headerValue text kName = some v → v ≠ [] → a.name = v) ∧
      (headerValue text kName = none ∨ headerValue text kName = some [] →
        a.name = fileStem fp)) ∧
    (∀ text fp s, parseSkillMarkdown text fp = some s →
      (∀ v, headerValue text kName = some v → v ≠ [] → s.name = v) ∧
      (headerValue text kName = none ∨ headerValue text kName = some [] →
        s.name = parentPart fp)) := by
  refine ⟨?_, ?_, ?_⟩
  · intro text fp c hp
    unfold parseCommandMarkdown at hp
    cases hfm : parseFrontmatter text with
    | none =>
      rw [hfm] at hp
      exact absurd hp (by simp)
    | some pr =>
      obtain ⟨fm, body⟩ := pr
      rw [hfm] at hp
      have hp2 : some (Command.mk (fileStem fp)
          ((lookupLast kDescription (buildMeta fm)).getD [])
          (lookupLast kArgHint (buildMeta fm)) (jsTrim body) fp) = some c := hp
      rw [← Option.some.inj hp2]
  · intro text fp a hp
    unfold parseAgentMarkdown at hp
    cases hfm : parseFrontmatter text with
    | none =>
      rw [hfm] at hp
      exact absurd hp (by simp)
    | some pr =>
      obtain ⟨fm, body⟩ := pr
      rw [hfm] at hp
      have hp2 : some (Agent.mk (jsOr (lookupLast kName (buildMeta fm)) (fileStem fp))
          ((lookupLast kDescription (buildMeta fm)).getD [])
          (parseToolsField (lookupLast kTools (buildMeta fm)))
          (jsOr (lookupLast kModel (buildMeta fm)) inheritStr)
          (jsTrim body) fp) = some a := hp
      have hhv : headerValue text kName = lookupLast kName (buildMeta fm) := by
        unfold headerValue
        rw [hfm]
      rw [← Option.some.inj hp2]
      constructor
      · intro v hv hvne
        rw [hhv] at hv
        show jsOr (lookupLast kName (buildMeta fm)) (fileStem fp) = v
        rw [hv]
        exact jsOr_some_ne hvne
      · intro hcase
        rw [hhv] at hcase
        show jsOr (lookupLast kName (buildMeta fm)) (fileStem fp) = fileStem fp
        rcases hcase with hc | hc
        · rw [hc]
          rfl
        · rw [hc]
          show (if ([] : Str) = [] then fileStem fp else []) = fileStem fp
          rw [if_pos rfl]
  · intro text fp s hp
    unfold parseSkillMarkdown at hp
    cases hfm : parseFrontmatter text with
    | none =>
      rw [hfm] at hp
      exact absurd hp (by simp)
    | some pr =>
      obtain ⟨fm, body⟩ := pr
      rw [hfm] at hp
      have hp2 : some (Skill.mk (jsOr (lookupLast kName (buildMeta fm)) (parentPart fp))
          ((lookupLast kDescription (buildMeta fm)).getD [])
          (parseToolsField (lookupLast kTools (buildMeta fm)))
          (jsOr (lookupLast kModel (buildMeta fm)) inheritStr)
          (jsTrim body) fp) = some s := hp
      have hhv : headerValue text kName = lookupLast kName (buildMeta fm) := by
        unfold headerValue
        rw [hfm]
      rw [← Option.some.inj hp2]
      constructor
      · intro v hv hvne
        rw [hhv] at hv
        show jsOr (lookupLast kName (buildMeta fm)) (parentPart fp) = v
        rw [hv]
        exact jsOr_some_ne hvne
      · intro hcase
        rw [hhv] at hcase
        show jsOr (lookupLast kName (buildMeta fm)) (parentPart fp) = parentPart fp
        rcases hcase with hc | hc
        · rw [hc]
          rfl
        · rw [hc]
          show (if ([] : Str) = [] then parentPart fp else []) = parentPart fp
          rw [if_pos rfl]

theorem C5_name_resolution_witness :
    (Command.mk "x".toList "d".toList none "b".toList "a/x.md".toList).name
      = fileStem "a/x.md".toList :=
  C5_name_resolution.1 "---\ndescription: d\n---\nb".toList "a/x.md".toList
    (Command.mk "x".toList "d".toList none "b".toList "a/x.md".toList) (by decide)

-- ===== hooks model (ClaudeConfigService.addHook / deleteHook) =====

inductive HookEvent
  | PreToolUse
  | PostToolUse
deriving DecidableEq, Repr

structure HookDef where
  command : Str
  timeout : Option Nat
deriving DecidableEq, Repr

structure HookMatcher where
  matcher : Str
  hooks : List HookDef
deriving DecidableEq, Repr

/-- The `hooks` object of settings.json: each event key may be absent. -/
structure HooksState where
  preToolUse : Option (List HookMatcher)
  postToolUse : Option (List HookMatcher)
deriving DecidableEq, Repr

structure Permissions where
  allow : List Str
  deny : List Str
  ask : List Str
deriving DecidableEq, Repr

structure McpServerConfig where
  command : Str
  args : List Str
  env : Option (List (Str × Str))
deriving DecidableEq, Repr

/-- `ClaudeSettings` (models/ClaudeConfig.ts): every top-level key optional. -/
structure ClaudeSettings where
  hooks : Option HooksState
  permissions : Option Permissions
  mcpServers : Option (List (Str × McpServerConfig))
deriving DecidableEq, Repr

def getEvent (h : HooksState) : HookEvent → Option (List HookMatcher)
  | .PreToolUse => h.preToolUse
  | .PostToolUse => h.postToolUse

def setEvent (h : HooksState) : HookEvent → List HookMatcher → HooksState
  | .PreToolUse, gs => { h with preToolUse := some gs }
  | .PostToolUse, gs => { h with postToolUse := some gs }

/-- The hook-definition object built by `addHook`: the timeout spread uses JS
truthiness, so a timeout of 0 is omitted. -/
def mkHookDef (command : Str) (timeout : Option Nat) : HookDef :=
  { command := command
  , timeout := match timeout with
      | some t => if t = 0 then none else some t
      | none => none }

/-- `find` + in-place push of `addHook`: append the action to the first
group whose matcher matches, if any. -/
def pushFirstMatch : List HookMatcher → Str → HookDef → Option (List HookMatcher)
  | [], _, _ => none
  | g :: gs, m, hd =>
    if g.matcher = m then some ({ g with hooks := g.hooks ++ [hd] } :: gs)
    else (pushFirstMatch gs m hd).map (g :: ·)

/-- The matcher-list update of `addHook`: extend the existing group for the
matcher, else append a brand-new group at the end. -/
def addHookGroups (groups : List HookMatcher) (m : Str) (hd : HookDef) : List HookMatcher :=
  match pushFirstMatch groups m hd with
  | some gs => gs
  | none => groups ++ [{ matcher := m, hooks := [hd] }]

/-- `ClaudeConfigService.addHook` restricted to its settings transformation:
ensure the hooks object and the event's list exist, then locate-or-create
the matcher group. -/
def ClaudeConfigService.addHook (s : ClaudeSettings) (ev : HookEvent)
    (matcher command : Str) (timeout : Option Nat) : ClaudeSettings :=
  let hs := s.hooks.getD ⟨some [], some []⟩
  let groups := (getEvent hs ev).getD []
  let updated := setEvent hs ev (addHookGroups groups matcher (mkHookDef command timeout))
  { s with hooks := some updated }

/-- The matcher groups a settings value holds for an event. -/
def groupsFor (s : ClaudeSettings) (ev : HookEvent) : List HookMatcher :=
  match s.hooks with
  | some hs => (getEvent hs ev).getD []
  | none => []

/-- A sequence of `addHook` calls against the same event and matcher. -/
def addHookSeq (s : ClaudeSettings) (ev : HookEvent) (m : Str) :
    List (Str × Option Nat) → ClaudeSettings
  | [] => s
  | (c, t) :: rest => addHookSeq (ClaudeConfigService.addHook s ev m c t) ev m rest

/-- The groups of a list whose matcher equals `m`. -/
def groupsWithMatcher (gs : List HookMatcher) (m : Str) : List HookMatcher :=
  gs.filter fun g => decide (g.matcher = m)

theorem groupsWithMatcher_nil {m : Str} : groupsWithMatcher [] m = [] := rfl

theorem groupsWithMatcher_cons_pos {g : HookMatcher} {gs : List HookMatcher} {m : Str}
    (h : g.matcher = m) :
    groupsWithMatcher (g :: gs) m = g :: groupsWithMatcher gs m := by
  unfold groupsWithMatcher
  rw [List.filter_cons_of_pos (by simp [h])]

theorem groupsWithMatcher_cons_neg {g : HookMatcher} {gs : List HookMatcher} {m : Str}
    (h : ¬ g.matcher = m) :
    groupsWithMatcher (g :: gs) m = groupsWithMatcher gs m := by
  unfold groupsWithMatcher
  rw [List.filter_cons_of_neg (by simp [h])]

theorem groupsWithMatcher_append (gs1 gs2 : List HookMatcher) (m : Str) :
    groupsWithMatcher (gs1 ++ gs2) m = groupsWithMatcher gs1 m ++ groupsWithMatcher gs2 m :=
  List.filter_append gs1 gs2

theorem pushFirstMatch_none {m : Str} {hd : HookDef} : ∀ {gs : List HookMatcher},
    groupsWithMatcher gs m = [] → pushFirstMatch gs m hd = none := by
  intro gs
  induction gs with
  | nil => intro _; rfl
  | cons g rest ih =>
    intro h
    by_cases hg : g.matcher = m
    · rw [groupsWithMatcher_cons_pos hg] at h
      simp at h
    · rw [groupsWithMatcher_cons_neg hg] at h
      show (if g.matcher = m then _ else (pushFirstMatch rest m hd).map (g :: ·)) = none
      rw [if_neg hg, ih h]
      rfl

theorem addHookGroups_new {groups : List HookMatcher} {m : Str} {hd : HookDef}
    (h : groupsWithMatcher groups m = []) :
    addHookGroups groups m hd = groups ++ [⟨m, [hd]⟩] := by
  unfold addHookGroups
  rw [pushFirstMatch_none h]

theorem pushFirstMatch_none_inv {m : Str} {hd : HookDef} : ∀ {gs : List HookMatcher},
    pushFirstMatch gs m hd = none → groupsWithMatcher gs m = [] := by
  intro gs
  induction gs with
  | nil => intro _; rfl
  | cons g rest ih =>
    intro h
    by_cases hg : g.matcher = m
    · exfalso
      unfold pushFirstMatch at h
      rw [if_pos hg] at h
      simp at h
    · unfold pushFirstMatch at h
      rw [if_neg hg] at h
      rw [groupsWithMatcher_cons_neg hg]
      cases hp : pushFirstMatch rest m hd with
      | none => exact ih hp
      | some gs2 =>
        rw [hp] at h
        simp at h

theorem addHookGroups_existing : ∀ {gs : List HookMatcher} {m : Str} {hd : HookDef}
    {hs : List HookDef}, groupsWithMatcher gs m = [⟨m, hs⟩] →
    groupsWithMatcher (addHookGroups gs m hd) m = [⟨m, hs ++ [hd]⟩] := by
  intro gs
  induction gs with
  | nil =>
    intro m hd hs h
    simp [groupsWithMatcher_nil] at h
  | cons g rest ih =>
    intro m hd hs h
    by_cases hg : g.matcher = m
    · rw [groupsWithMatcher_cons_pos hg] at h
      rw [List.cons.injEq] at h
      obtain ⟨hgeq, hrest⟩ := h
      have haddg : addHookGroups (g :: rest) m hd
          = { g with hooks := g.hooks ++ [hd] } :: rest := by
        unfold addHookGroups pushFirstMatch
        rw [if_pos hg]
      rw [haddg, groupsWithMatcher_cons_pos (show ({ g with hooks := g.hooks ++ [hd] }
        : HookMatcher).matcher = m from hg), hrest, hgeq]
    · rw [groupsWithMatcher_cons_neg hg] at h
      cases hp : pushFirstMatch rest m hd with
      | none =>
        exfalso
        rw [pushFirstMatch_none_inv hp] at h
        simp at h
      | some gs2 =>
        have haddg : addHookGroups (g :: rest) m hd = g :: gs2 := by
          unfold addHookGroups pushFirstMatch
          rw [if_neg hg, hp]
          rfl
        have haddr : addHookGroups rest m hd = gs2 := by
          unfold addHookGroups
          rw [hp]
        rw [haddg, groupsWithMatcher_cons_neg hg, ← haddr]
        exact ih h

theorem groupsFor_addHook (s : ClaudeSettings) (ev : HookEvent) (m c : Str)
    (t : Option Nat) :
    groupsFor (ClaudeConfigService.addHook s ev m c t) ev
      = addHookGroups (groupsFor s ev) m (mkHookDef c t) := by
  unfold ClaudeConfigService.addHook groupsFor
  cases s.hooks with
  | none => cases ev <;> rfl
  | some hs => cases ev <;> rfl

theorem addHookSeq_existing : ∀ (defs : List (Str × Option Nat)) (s : ClaudeSettings)
    (ev : HookEvent) (m : Str) (hs : List HookDef),
    groupsWithMatcher (groupsFor s ev) m = [⟨m, hs⟩] →
    groupsWithMatcher (groupsFor (addHookSeq s ev m defs) ev) m
      = [⟨m, hs ++ defs.map fun p => mkHookDef p.1 p.2⟩] := by
  intro defs
  induction defs with
  | nil =>
    intro s ev m hs h
    show groupsWithMatcher (groupsFor s ev) m = _
    rw [h]
    simp
  | cons p rest ih =>
    intro s ev m hs h
    obtain ⟨c, t⟩ := p
    show groupsWithMatcher
      (groupsFor (addHookSeq (ClaudeConfigService.addHook s ev m c t) ev m rest) ev) m = _
    have h1 : groupsWithMatcher (groupsFor (ClaudeConfigService.addHook s ev m c t) ev) m
        = [⟨m, hs ++ [mkHookDef c t]⟩] := by
      rw [groupsFor_addHook]
      exact addHookGroups_existing h
    rw [ih _ ev m _ h1]
    simp

/-- C3: starting from settings holding no matcher group for the targeted
(event, matcher) pair, any non-empty sequence of `addHook` calls for that
pair leaves exactly one `MatcherGroup` for the pair, whose action list holds
one action per call, in call order. -/
theorem C3_addHook_single_group (s : ClaudeSettings) (ev : HookEvent) (m : Str)
    (defs : List (Str × Option Nat))
    (hstart : groupsWithMatcher (groupsFor s ev) m = [])
    (hne : defs ≠ []) :
    groupsWithMatcher (groupsFor (addHookSeq s ev m defs) ev) m
      = [⟨m, defs.map fun p => mkHookDef p.1 p.2⟩] ∧
    (groupsWithMatcher (groupsFor (addHookSeq s ev m defs) ev) m).length = 1 ∧
    ∀ g ∈ groupsWithMatcher (groupsFor (addHookSeq s ev m defs) ev) m,
      g.hooks.length = defs.length := by
  have hmain : groupsWithMatcher (groupsFor (addHookSeq s ev m defs) ev) m
      = [⟨m, defs.map fun p => mkHookDef p.1 p.2⟩] := by
    cases defs with
    | nil => exact absurd rfl hne
    | cons p rest =>
      obtain ⟨c, t⟩ := p
      show groupsWithMatcher
        (groupsFor (addHookSeq (ClaudeConfigService.addHook s ev m c t) ev m rest) ev) m = _
      have h1 : groupsWithMatcher (groupsFor (ClaudeConfigService.addHook s ev m c t) ev) m
          = [⟨m, [mkHookDef c t]⟩] := by
        rw [groupsFor_addHook, addHookGroups_new hstart, groupsWithMatcher_append, hstart,
          groupsWithMatcher_cons_pos rfl, groupsWithMatcher_nil]
        rfl
      rw [addHookSeq_existing rest _ ev m _ h1]
      simp
  refine ⟨hmain, by rw [hmain]; rfl, ?_⟩
  intro g hg
  rw [hmain] at hg
  simp only [List.mem_singleton] at hg
  subst hg
  simp

theorem C3_addHook_single_group_witness :
    groupsWithMatcher (groupsFor (addHookSeq ⟨none, none, none⟩ HookEvent.PreToolUse
      "Edit".toList [("lint".toList, some 5), ("fmt".toList, none)]) HookEvent.PreToolUse)
      "Edit".toList
      = [⟨"Edit".toList, [⟨"lint".toList, some 5⟩, ⟨"fmt".toList, none⟩]⟩] :=
  (C3_addHook_single_group ⟨none, none, none⟩ HookEvent.PreToolUse "Edit".toList
    [("lint".toList, some 5), ("fmt".toList, none)] (by decide) (by decide)).1

-- ===== deleteHook (C6) =====

/-- The flattened hook view produced by `getHooks`. -/
structure FlatHook where
  id : Str
  event : HookEvent
  matcher : Str
  command : Str
  timeout : Option Nat
deriving DecidableEq, Repr

def eventName : HookEvent → Str
  | .PreToolUse => "PreToolUse".toList
  | .PostToolUse => "PostToolUse".toList

/-- The composite identity string of a flattened hook. -/
def hookId (ev : HookEvent) (m c : Str) : Str := eventName ev ++ '-' :: m ++ '-' :: c

/-- `getHooks` restricted to one event: flatten the matcher groups in order. -/
def flattenEvent (ev : HookEvent) (groups : List HookMatcher) : List FlatHook :=
  (groups.map fun g => g.hooks.map fun hd =>
    FlatHook.mk (hookId ev g.matcher hd.command) ev g.matcher hd.command hd.timeout).join

/-- `ClaudeConfigService.deleteHook` restricted to its settings
transformation; the Bool records whether `saveSettings` would run. -/
def ClaudeConfigService.deleteHook (s : ClaudeSettings) (ev : HookEvent) (hid : Str) :
    ClaudeSettings × Bool :=
  match (flattenEvent ev (groupsFor s ev)).find? fun h => decide (h.id = hid) with
  | none => (s, false)
  | some h =>
    match s.hooks with
    | none => (s, false)
    | some hs =>
      match getEvent hs ev with
      | none => (s, false)
      | some matchers =>
        let matchers2 := matchers.map fun g =>
          if g.matcher = h.matcher
          then { g with hooks := g.hooks.filter fun d => decide (¬ d.command = h.command) }
          else g
        let matchers3 := matchers2.filter fun g => decide (¬ g.hooks = [])
        ({ s with hooks := some (setEvent hs ev matchers3) }, true)

theorem getEvent_setEvent (hs : HooksState) (ev : HookEvent) (gs : List HookMatcher) :
    getEvent (setEvent hs ev gs) ev = some gs := by
  cases ev <;> rfl
theorem groupsFor_eq (s : ClaudeSettings) (ev : HookEvent) (hs : HooksState)
    (h : s.hooks = some hs) : groupsFor s ev = (getEvent hs ev).getD [] := by
  unfold groupsFor
  rw [h]

/-- C6 (amended): when the identity does not resolve to any flattened hook
of the event (or the hooks structure or the event's list is absent) the call
returns the settings unchanged without persisting; when it resolves,
`deleteHook` persists a state in which EVERY action whose command equals the
resolved hook's command is removed from EVERY group whose matcher equals the
resolved hook's matcher, and every group left (or already) empty is removed
— so no group for the pair keeps an action with that command and no empty
group survives. -/
theorem C6_deleteHook_behaviour (s : ClaudeSettings) (ev : HookEvent) (hid : Str) :
    (((flattenEvent ev (groupsFor s ev)).find? fun h => decide (h.id = hid)) = none →
      ClaudeConfigService.deleteHook s ev hid = (s, false)) ∧
    (∀ h, ((flattenEvent ev (groupsFor s ev)).find? fun h2 => decide (h2.id = hid)) = some h →
      (ClaudeConfigService.deleteHook s ev hid).2 = true ∧
      groupsFor (ClaudeConfigService.deleteHook s ev hid).1 ev
        = ((groupsFor s ev).map fun g =>
            if g.matcher = h.matcher
            then { g with hooks := g.hooks.filter fun d => decide (¬ d.command = h.command) }
            else g).filter (fun g => decide (¬ g.hooks = [])) ∧
      ∀ g ∈ groupsFor (ClaudeConfigService.deleteHook s ev hid).1 ev,
        g.hooks ≠ [] ∧ (g.matcher = h.matcher → ∀ d ∈ g.hooks, d.command ≠ h.command)) := by
  constructor
  · intro hf
    unfold ClaudeConfigService.deleteHook
    rw [hf]
  · intro h hf
    cases hh : s.hooks with
    | none =>
      exfalso
      have hnil : groupsFor s ev = [] := by
        unfold groupsFor
        rw [hh]
      rw [hnil] at hf
      simp [flattenEvent] at hf
    | some hs =>
      cases hge : getEvent hs ev with
      | none =>
        exfalso
        rw [groupsFor_eq s ev hs hh, hge] at hf
        simp [flattenEvent] at hf
      | some matchers =>
        have hgroups : groupsFor s ev = matchers := by
          rw [groupsFor_eq s ev hs hh, hge]
          rfl
        have hdel1 : (ClaudeConfigService.deleteHook s ev hid).2 = true := by
          unfold ClaudeConfigService.deleteHook
          rw [hf, hh]
          dsimp only
          rw [hge]
        have hdel2 : (ClaudeConfigService.deleteHook s ev hid).1.hooks
            = some (setEvent hs ev
              (((groupsFor s ev).map fun g =>
                if g.matcher = h.matcher
                then { g with hooks := g.hooks.filter fun d => decide (¬ d.command = h.command) }
                else g).filter fun g => decide (¬ g.hooks = []))) := by
          rw [hgroups]
          unfold ClaudeConfigService.deleteHook
          rw [hf, hh]
          dsimp only
          rw [hge]
        have hgr : groupsFor (ClaudeConfigService.deleteHook s ev hid).1 ev
            = ((groupsFor s ev).map fun g =>
                if g.matcher = h.matcher
                then { g with hooks := g.hooks.filter fun d => decide (¬ d.command = h.command) }
                else g).filter fun g => decide (¬ g.hooks = []) := by
          rw [groupsFor_eq _ ev _ hdel2, getEvent_setEvent]
          rfl
        refine ⟨hdel1, hgr, ?_⟩
        intro g hg
        rw [hgr] at hg
        rw [List.mem_filter] at hg
        obtain ⟨hgm, hgne⟩ := hg
        constructor
        · simpa using hgne
        · intro hmm d hd
          obtain ⟨g0, hg0, hfg⟩ := List.mem_map.mp hgm
          by_cases hg0m : g0.matcher = h.matcher
          · rw [if_pos hg0m] at hfg
            rw [← hfg] at hd
            dsimp only at hd
            rw [List.mem_filter] at hd
            simpa using hd.2
          · rw [if_neg hg0m] at hfg
            rw [← hfg] at hmm
            exact absurd hmm hg0m

theorem C6_deleteHook_behaviour_witness :
    ClaudeConfigService.deleteHook (ClaudeSettings.mk none none none)
      HookEvent.PreToolUse "x".toList = (ClaudeSettings.mk none none none, false) :=
  (C6_deleteHook_behaviour (ClaudeSettings.mk none none none)
    HookEvent.PreToolUse "x".toList).1 (by decide)

/-- C6 counterexample: a group holding two actions with the same command
(reachable by two addHook calls for the same (event, matcher, command)).
The claim says deleteHook removes the single matching action, which would
leave the group with the action of timeout 2; the code filters out every
action with the command, leaving the group empty, and then drops it. -/
theorem C6_counterexample :
    (ClaudeConfigService.deleteHook
      (ClaudeSettings.mk (some (HooksState.mk
        (some [⟨"m".toList, [⟨"c".toList, some 1⟩, ⟨"c".toList, some 2⟩]⟩]) (some [])))
        none none)
      HookEvent.PreToolUse (hookId HookEvent.PreToolUse "m".toList "c".toList)).1
      = ClaudeSettings.mk (some (HooksState.mk (some []) (some []))) none none ∧
    ClaudeSettings.mk (some (HooksState.mk (some ([] : List HookMatcher)) (some []))) none none
      ≠ ClaudeSettings.mk (some (HooksState.mk
        (some [⟨"m".toList, [⟨"c".toList, some 2⟩]⟩]) (some []))) none none :=
  ⟨by decide, by decide⟩

-- ===== mergePermissions (C7) =====

/-- Spread of a JS Set built from a list: first occurrence of each element
is kept, later duplicates dropped. `seen` holds the elements already kept. -/
def jsSetDedupAux (seen : List Str) : List Str → List Str
  | [] => []
  | x :: xs => if x ∈ seen then jsSetDedupAux seen xs else x :: jsSetDedupAux (x :: seen) xs

def jsSetDedup (xs : List Str) : List Str := jsSetDedupAux [] xs

/-- Permissions overlay with every bucket optional (TS Partial). -/
structure PartialPermissions where
  allow : Option (List Str)
  deny : Option (List Str)
  ask : Option (List Str)
deriving DecidableEq, Repr

def mergePermissions (base : Permissions) (override : PartialPermissions) : Permissions :=
  { allow := jsSetDedup (base.allow ++ (override.allow.getD []))
    deny := jsSetDedup (base.deny ++ (override.deny.getD []))
    ask := jsSetDedup (base.ask ++ (override.ask.getD [])) }

theorem mem_jsSetDedupAux (x : Str) (l : List Str) :
    ∀ seen, x ∈ jsSetDedupAux seen l ↔ x ∈ l ∧ x ∉ seen := by
  induction l with
  | nil => intro seen; simp [jsSetDedupAux]
  | cons y ys ih =>
    intro seen
    by_cases hy : y ∈ seen
    · rw [jsSetDedupAux, if_pos hy, ih]
      constructor
      · exact fun ⟨h1, h2⟩ => ⟨List.mem_cons_of_mem y h1, h2⟩
      · rintro ⟨h1, h2⟩
        rcases List.mem_cons.mp h1 with rfl | h1
        · exact absurd hy h2
        · exact ⟨h1, h2⟩
    · rw [jsSetDedupAux, if_neg hy]
      rw [List.mem_cons, ih]
      constructor
      · rintro (rfl | ⟨h1, h2⟩)
        · exact ⟨List.mem_cons_self x ys, hy⟩
        · exact ⟨List.mem_cons_of_mem y h1, fun hc => h2 (List.mem_cons_of_mem y hc)⟩
      · rintro ⟨h1, h2⟩
        by_cases hxy : x = y
        · exact Or.inl hxy
        · right
          rcases List.mem_cons.mp h1 with h | h1
          · exact absurd h hxy
          · refine ⟨h1, fun hc => ?_⟩
            rcases List.mem_cons.mp hc with h | hc
            · exact hxy h
            · exact h2 hc

theorem jsSetDedupAux_nodup (l : List Str) : ∀ seen, (jsSetDedupAux seen l).Nodup := by
  induction l with
  | nil => intro seen; exact List.nodup_nil
  | cons y ys ih =>
    intro seen
    by_cases hy : y ∈ seen
    · rw [jsSetDedupAux, if_pos hy]
      exact ih seen
    · rw [jsSetDedupAux, if_neg hy]
      refine List.nodup_cons.mpr ⟨fun hc => ?_, ih (y :: seen)⟩
      exact ((mem_jsSetDedupAux y ys (y :: seen)).mp hc).2 (List.mem_cons_self y seen)

theorem filter_filter_mem (l : List Str) (y : Str) (seen : List Str) (hy : y ∈ seen) :
    ((l.filter fun a => decide (¬ a ∈ [y])).filter fun a => decide (¬ a ∈ seen))
      = l.filter fun a => decide (¬ a ∈ seen) := by
  rw [List.filter_filter]
  refine List.filter_congr fun a _ => ?_
  by_cases h2 : a ∈ seen
  · simp [h2]
  · have h1 : ¬ a = y := fun h => h2 (h ▸ hy)
    simp [h1, h2]

theorem filter_cons_seen (l : List Str) (y : Str) (seen : List Str) :
    (l.filter fun a => decide (¬ a ∈ y :: seen))
      = (l.filter fun a => decide (¬ a ∈ [y])).filter fun a => decide (¬ a ∈ seen) := by
  rw [List.filter_filter]
  refine List.filter_congr fun a _ => ?_
  by_cases h1 : a = y <;> by_cases h2 : a ∈ seen <;> simp [List.mem_cons, h1, h2]

theorem jsSetDedupAux_eq_filter (l : List Str) :
    ∀ seen, jsSetDedupAux seen l = (jsSetDedup l).filter fun a => decide (¬ a ∈ seen) := by
  induction l with
  | nil =>
    intro seen
    rfl
  | cons y ys ih =>
    intro seen
    have hnil : jsSetDedup (y :: ys) = y :: jsSetDedupAux [y] ys := by
      unfold jsSetDedup
      rw [jsSetDedupAux, if_neg (List.not_mem_nil y)]
    rw [hnil, List.filter_cons]
    by_cases hy : y ∈ seen
    · have hd : (decide (¬ y ∈ seen)) = false := by simp [hy]
      rw [jsSetDedupAux, if_pos hy, ih seen, hd, ih [y]]
      simp only [Bool.false_eq_true, if_false]
      exact (filter_filter_mem (jsSetDedup ys) y seen hy).symm
    · have hd : (decide (¬ y ∈ seen)) = true := by simp [hy]
      rw [jsSetDedupAux, if_neg hy, ih (y :: seen), hd, ih [y]]
      simp only [if_true]
      rw [filter_cons_seen]

def seenAfter (seen : List Str) : List Str → List Str
  | [] => seen
  | x :: xs => if x ∈ seen then seenAfter seen xs else seenAfter (x :: seen) xs

theorem jsSetDedupAux_append (a b : List Str) :
    ∀ seen, jsSetDedupAux seen (a ++ b)
      = jsSetDedupAux seen a ++ jsSetDedupAux (seenAfter seen a) b := by
  induction a with
  | nil => intro seen; rfl
  | cons x xs ih =>
    intro seen
    by_cases hx : x ∈ seen
    · rw [List.cons_append, jsSetDedupAux, if_pos hx, ih seen]
      rw [jsSetDedupAux, if_pos hx, seenAfter, if_pos hx]
    · rw [List.cons_append, jsSetDedupAux, if_neg hx, ih (x :: seen)]
      rw [jsSetDedupAux, if_neg hx, seenAfter, if_neg hx, List.cons_append]

theorem mem_seenAfter (x : Str) (a : List Str) :
    ∀ seen, x ∈ seenAfter seen a ↔ x ∈ seen ∨ x ∈ a := by
  induction a with
  | nil => intro seen; simp [seenAfter]
  | cons y ys ih =>
    intro seen
    by_cases hy : y ∈ seen
    · rw [seenAfter, if_pos hy, ih seen, List.mem_cons]
      constructor
      · rintro (h | h)
        · exact Or.inl h
        · exact Or.inr (Or.inr h)
      · rintro (h | h | h)
        · exact Or.inl h
        · exact Or.inl (h ▸ hy)
        · exact Or.inr h
    · rw [seenAfter, if_neg hy, ih (y :: seen), List.mem_cons, List.mem_cons]
      tauto

theorem jsSetDedup_append (a b : List Str) :
    jsSetDedup (a ++ b) = jsSetDedup a ++ (jsSetDedup b).filter fun x => decide (¬ x ∈ a) := by
  show jsSetDedupAux [] (a ++ b) = _
  rw [jsSetDedupAux_append a b [], jsSetDedupAux_eq_filter b (seenAfter [] a)]
  show jsSetDedupAux [] a ++ _ = _
  congr 1
  refine List.filter_congr fun x _ => ?_
  have hm : x ∈ seenAfter [] a ↔ x ∈ a := by
    rw [mem_seenAfter x a []]
    simp
  simp [hm]

/-- C7: for each bucket (allow, deny, ask) the merged permissions are the
base (global) entries followed by the override (project) entries, with
duplicates removed by string equality keeping the first occurrence — so
membership is exactly the union, the result has no duplicates, and the
order is global entries first, then project-only additions; in particular
global allow [A] merged with project allow [B] gives allow [A, B]. -/
theorem C7_merge_union (base : Permissions) (override : PartialPermissions) :
    ((mergePermissions base override).allow
        = jsSetDedup base.allow
          ++ (jsSetDedup (override.allow.getD [])).filter (fun x => decide (¬ x ∈ base.allow)) ∧
      (∀ x, x ∈ (mergePermissions base override).allow
        ↔ x ∈ base.allow ∨ x ∈ override.allow.getD []) ∧
      (mergePermissions base override).allow.Nodup) ∧
    ((mergePermissions base override).deny
        = jsSetDedup base.deny
          ++ (jsSetDedup (override.deny.getD [])).filter (fun x => decide (¬ x ∈ base.deny)) ∧
      (∀ x, x ∈ (mergePermissions base override).deny
        ↔ x ∈ base.deny ∨ x ∈ override.deny.getD []) ∧
      (mergePermissions base override).deny.Nodup) ∧
    ((mergePermissions base override).ask
        = jsSetDedup base.ask
          ++ (jsSetDedup (override.ask.getD [])).filter (fun x => decide (¬ x ∈ base.ask)) ∧
      (∀ x, x ∈ (mergePermissions base override).ask
        ↔ x ∈ base.ask ∨ x ∈ override.ask.getD []) ∧
      (mergePermissions base override).ask.Nodup) ∧
    mergePermissions (Permissions.mk ["A".toList] [] [])
        (PartialPermissions.mk (some ["B".toList]) none none)
      = Permissions.mk ["A".toList, "B".toList] [] [] := by
  refine ⟨⟨?_, ?_, ?_⟩, ⟨?_, ?_, ?_⟩, ⟨?_, ?_, ?_⟩, by decide⟩
  · exact jsSetDedup_append base.allow (override.allow.getD [])
  · intro x
    show x ∈ jsSetDedupAux [] (base.allow ++ override.allow.getD []) ↔ _
    rw [mem_jsSetDedupAux]
    simp [List.mem_append]
  · exact jsSetDedupAux_nodup _ []
  · exact jsSetDedup_append base.deny (override.deny.getD [])
  · intro x
    show x ∈ jsSetDedupAux [] (base.deny ++ override.deny.getD []) ↔ _
    rw [mem_jsSetDedupAux]
    simp [List.mem_append]
  · exact jsSetDedupAux_nodup _ []
  · exact jsSetDedup_append base.ask (override.ask.getD [])
  · intro x
    show x ∈ jsSetDedupAux [] (base.ask ++ override.ask.getD []) ↔ _
    rw [mem_jsSetDedupAux]
    simp [List.mem_append]
  · exact jsSetDedupAux_nodup _ []

-- ===== createCommand / createSkill / createAgent (C1) =====

/-- A directory as an association of entry names to file contents;
`fs.writeFileSync` overwrites the entry when present, else adds it. -/
def writeAssoc : List (Str × Str) → Str → Str → List (Str × Str)
  | [], k, v => [(k, v)]
  | p :: ps, k, v => if p.1 = k then (k, v) :: ps else p :: writeAssoc ps k v

def lookupFile : List (Str × Str) → Str → Option Str
  | [], _ => none
  | p :: ps, k => if p.1 = k then some p.2 else lookupFile ps k

/-- `createCommand` restricted to its effect on the commands directory: no
existence or conflict check; it writes `name`.md for the raw name and
returns the record — it has no failure outcome. -/
def ClaudeConfigService.createCommand (dir : List (Str × Str))
    (name description content : Str) (argumentHint : Option Str) :
    List (Str × Str) × Command :=
  let command : Command := ⟨name, description, argumentHint, content, name ++ mdExt⟩
  (writeAssoc dir (name ++ mdExt) (commandToMarkdown command), command)

/-- `createSkill`: the skill directory is the raw name, holding SKILL.md. -/
def ClaudeConfigService.createSkill (dir : List (Str × Str))
    (name description content : Str) (tools : List Str) (model : Str) :
    List (Str × Str) × Skill :=
  let skill : Skill := ⟨name, description, tools, model, content, name ++ "/SKILL.md".toList⟩
  (writeAssoc dir name (skillToMarkdown skill), skill)

/-- `createAgent`: writes `name`.md in the agents directory. -/
def ClaudeConfigService.createAgent (dir : List (Str × Str))
    (name description content : Str) (tools : List Str) (model : Str) :
    List (Str × Str) × Agent :=
  let agent : Agent := ⟨name, description, tools, model, content, name ++ mdExt⟩
  (writeAssoc dir (name ++ mdExt) (agentToMarkdown agent), agent)

theorem lookupFile_writeAssoc_self (dir : List (Str × Str)) (k v : Str) :
    lookupFile (writeAssoc dir k v) k = some v := by
  induction dir with
  | nil => simp [writeAssoc, lookupFile]
  | cons p ps ih =>
    by_cases h : p.1 = k
    · simp [writeAssoc, lookupFile, h]
    · simp [writeAssoc, lookupFile, h, ih]

theorem lookupFile_writeAssoc_other (dir : List (Str × Str)) (k v k' : Str) (h : k' ≠ k) :
    lookupFile (writeAssoc dir k v) k' = lookupFile dir k' := by
  have h1 : ¬ (k = k') := fun hc => h hc.symm
  induction dir with
  | nil => simp [writeAssoc, lookupFile, h1]
  | cons p ps ih =>
    by_cases hp : p.1 = k
    · have h2 : ¬ (p.1 = k') := fun hc => h1 (hp.symm.trans hc)
      simp [writeAssoc, lookupFile, hp, h1, h2]
    · by_cases hpk : p.1 = k' <;> simp [writeAssoc, lookupFile, hp, hpk, ih, h]

/-- C1 counterexample: creating command Foo and then command foo — whose
normalized names agree — both succeed; the second is not rejected, and the
two files Foo.md and foo.md coexist afterwards. -/
theorem C1_counterexample :
    normalizeCommandName "Foo".toList = normalizeCommandName "foo".toList ∧
    (let r1 := ClaudeConfigService.createCommand [] "Foo".toList "d".toList "c".toList none
     let r2 := ClaudeConfigService.createCommand r1.1 "foo".toList "d".toList "c".toList none
     lookupFile r2.1 ("Foo".toList ++ mdExt) = some (commandToMarkdown r1.2) ∧
     lookupFile r2.1 ("foo".toList ++ mdExt) = some (commandToMarkdown r2.2) ∧
     r2.2 = Command.mk "foo".toList "d".toList none "c".toList ("foo".toList ++ mdExt)) :=
  ⟨by decide, by decide, by decide, by decide⟩

/-- C1 (amended): no creation path performs a conflict (or existence) check:
for every prior directory state — including one already holding an artifact
whose normalized name equals the normalized requested name — createCommand,
createSkill and createAgent write the file for the RAW requested name
unconditionally and return the new record (there is no failure outcome),
and every entry under any other name, conflicting or not, is untouched. -/
theorem C1_create_no_conflict (dir : List (Str × Str)) (name d c k : Str)
    (hint : Option Str) (tools : List Str) (model : Str) :
    ((ClaudeConfigService.createCommand dir name d c hint).2
        = Command.mk name d hint c (name ++ mdExt) ∧
      lookupFile (ClaudeConfigService.createCommand dir name d c hint).1 (name ++ mdExt)
        = some (commandToMarkdown (Command.mk name d hint c (name ++ mdExt))) ∧
      (k ≠ name ++ mdExt →
        lookupFile (ClaudeConfigService.createCommand dir name d c hint).1 k
          = lookupFile dir k)) ∧
    ((ClaudeConfigService.createSkill dir name d c tools model).2
        = Skill.mk name d tools model c (name ++ "/SKILL.md".toList) ∧
      lookupFile (ClaudeConfigService.createSkill dir name d c tools model).1 name
        = some (skillToMarkdown (Skill.mk name d tools model c (name ++ "/SKILL.md".toList))) ∧
      (k ≠ name →
        lookupFile (ClaudeConfigService.createSkill dir name d c tools model).1 k
          = lookupFile dir k)) ∧
    ((ClaudeConfigService.createAgent dir name d c tools model).2
        = Agent.mk name d tools model c (name ++ mdExt) ∧
      lookupFile (ClaudeConfigService.createAgent dir name d c tools model).1 (name ++ mdExt)
        = some (agentToMarkdown (Agent.mk name d tools model c (name ++ mdExt))) ∧
      (k ≠ name ++ mdExt →
        lookupFile (ClaudeConfigService.createAgent dir name d c tools model).1 k
          = lookupFile dir k)) := by
  refine ⟨⟨rfl, ?_, fun hk => ?_⟩, ⟨rfl, ?_, fun hk => ?_⟩, ⟨rfl, ?_, fun hk => ?_⟩⟩
  · exact lookupFile_writeAssoc_self dir (name ++ mdExt) _
  · exact lookupFile_writeAssoc_other dir (name ++ mdExt) _ k hk
  · exact lookupFile_writeAssoc_self dir name _
  · exact lookupFile_writeAssoc_other dir name _ k hk
  · exact lookupFile_writeAssoc_self dir (name ++ mdExt) _
  · exact lookupFile_writeAssoc_other dir (name ++ mdExt) _ k hk

theorem C1_create_no_conflict_witness :
    lookupFile (ClaudeConfigService.createCommand
        [("a".toList ++ mdExt, "x".toList)] "b".toList "d".toList "c".toList none).1
        ("a".toList ++ mdExt)
      = lookupFile [("a".toList ++ mdExt, "x".toList)] ("a".toList ++ mdExt) :=
  (C1_create_no_conflict [("a".toList ++ mdExt, "x".toList)] "b".toList "d".toList
    "c".toList ("a".toList ++ mdExt) none [] []).1.2.2 (by decide)

-- ===== change notifications (C8) =====

def createDefaultSettings : ClaudeSettings :=
  { hooks := some ⟨some [], some []⟩
    permissions := some ⟨[], [], []⟩
    mcpServers := some [] }

/-- The store's on-disk state: settings.json and CLAUDE.md (each possibly
absent) plus the commands and agents directories. -/
structure SvcState where
  settings : Option ClaudeSettings
  claudeMd : Option Str
  commandFiles : List (Str × Str)
  agentFiles : List (Str × Str)
deriving DecidableEq, Repr

/-- The payload of a change notification: what `loadConfig` reads. -/
structure LoadedConfig where
  settings : ClaudeSettings
  claudeMdContent : Option Str
deriving DecidableEq, Repr

/-- `loadConfig`: defaults, then overlays settings.json and CLAUDE.md when
present; it never reads the commands or agents directories. -/
def ClaudeConfigService.loadConfig (st : SvcState) : LoadedConfig :=
  ⟨st.settings.getD createDefaultSettings, st.claudeMd⟩

/-- `saveSettings`: write settings.json, then load a fresh config and fire
it as the single change notification. -/
def ClaudeConfigService.saveSettingsSvc (st : SvcState) (s : ClaudeSettings) :
    SvcState × List LoadedConfig :=
  let st2 := { st with settings := some s }
  (st2, [ClaudeConfigService.loadConfig st2])

def ClaudeConfigService.addHookSvc (st : SvcState) (ev : HookEvent) (m c : Str)
    (t : Option Nat) : SvcState × List LoadedConfig :=
  ClaudeConfigService.saveSettingsSvc st
    (ClaudeConfigService.addHook (ClaudeConfigService.loadConfig st).settings ev m c t)

def ClaudeConfigService.deleteHookSvc (st : SvcState) (ev : HookEvent) (hid : Str) :
    SvcState × List LoadedConfig :=
  let r := ClaudeConfigService.deleteHook (ClaudeConfigService.loadConfig st).settings ev hid
  if r.2 then ClaudeConfigService.saveSettingsSvc st r.1 else (st, [])

/-- `createCommand` in the service: the fired snapshot is loaded before the
file write, which is immaterial because `loadConfig` never reads the
commands directory. -/
def ClaudeConfigService.createCommandSvc (st : SvcState) (name d c : Str)
    (hint : Option Str) : SvcState × List LoadedConfig :=
  let cfg := ClaudeConfigService.loadConfig st
  let st2 := { st with commandFiles :=
    (ClaudeConfigService.createCommand st.commandFiles name d c hint).1 }
  (st2, [cfg])

def endsWithMd (s : Str) : Bool := List.isSuffixOf mdExt s

def getCommandsM (st : SvcState) : List Command :=
  st.commandFiles.filterMap fun p =>
    if endsWithMd p.1 then parseCommandMarkdown p.2 p.1 else none

def ClaudeConfigService.deleteCommandSvc (st : SvcState) (name : Str) :
    SvcState × List LoadedConfig :=
  match (getCommandsM st).find? fun c2 => decide (c2.name = name) with
  | none => (st, [])
  | some c2 =>
    if st.commandFiles.any fun p => decide (p.1 = c2.filePath) then
      let st2 := { st with commandFiles :=
        st.commandFiles.filter fun p => decide (¬ p.1 = c2.filePath) }
      (st2, [ClaudeConfigService.loadConfig st2])
    else (st, [])

def getAgentsM (st : SvcState) : List Agent :=
  st.agentFiles.filterMap fun p =>
    if endsWithMd p.1 then parseAgentMarkdown p.2 p.1 else none

def ClaudeConfigService.deleteAgentSvc (st : SvcState) (name : Str) :
    SvcState × List LoadedConfig :=
  match (getAgentsM st).find? fun a => decide (a.name = name) with
  | none => (st, [])
  | some a =>
    if st.agentFiles.any fun p => decide (p.1 = a.filePath) then
      let st2 := { st with agentFiles :=
        st.agentFiles.filter fun p => decide (¬ p.1 = a.filePath) }
      (st2, [ClaudeConfigService.loadConfig st2])
    else (st, [])

/-- C8: over the modeled mutation family (saveSettings, addHook, deleteHook,
createCommand, deleteCommand, deleteAgent), every mutation that changes the
store fires exactly one notification, and its payload equals the fresh
`loadConfig` of the state after the mutation — for createCommand the code
loads the snapshot before the file write, but `loadConfig` never reads the
commands directory, so the payload still equals the post-state load; and a
delete whose name does not resolve leaves the state unchanged and fires
nothing. -/
theorem C8_notifications (st : SvcState) (s : ClaudeSettings) (ev : HookEvent)
    (hid name d c : Str) (hint : Option Str) (t : Option Nat) :
    ((ClaudeConfigService.saveSettingsSvc st s).2
        = [ClaudeConfigService.loadConfig (ClaudeConfigService.saveSettingsSvc st s).1]) ∧
    ((ClaudeConfigService.addHookSvc st ev name c t).2
        = [ClaudeConfigService.loadConfig (ClaudeConfigService.addHookSvc st ev name c t).1]) ∧
    ((ClaudeConfigService.deleteHook
          (ClaudeConfigService.loadConfig st).settings ev hid).2 = true →
      (ClaudeConfigService.deleteHookSvc st ev hid).2
        = [ClaudeConfigService.loadConfig (ClaudeConfigService.deleteHookSvc st ev hid).1]) ∧
    ((ClaudeConfigService.deleteHook
          (ClaudeConfigService.loadConfig st).settings ev hid).2 = false →
      ClaudeConfigService.deleteHookSvc st ev hid = (st, [])) ∧
    ((ClaudeConfigService.createCommandSvc st name d c hint).2
        = [ClaudeConfigService.loadConfig (ClaudeConfigService.createCommandSvc st name d c hint).1]) ∧
    (∀ c2, ((getCommandsM st).find? fun c3 => decide (c3.name = name)) = some c2 →
      (st.commandFiles.any fun p => decide (p.1 = c2.filePath)) = true →
      (ClaudeConfigService.deleteCommandSvc st name).2
        = [ClaudeConfigService.loadConfig (ClaudeConfigService.deleteCommandSvc st name).1]) ∧
    (((getCommandsM st).find? fun c2 => decide (c2.name = name)) = none →
      ClaudeConfigService.deleteCommandSvc st name = (st, [])) ∧
    (((getAgentsM st).find? fun a => decide (a.name = name)) = none →
      ClaudeConfigService.deleteAgentSvc st name = (st, [])) := by
  refine ⟨rfl, rfl, ?_, ?_, rfl, ?_, ?_, ?_⟩
  · intro h
    unfold ClaudeConfigService.deleteHookSvc
    dsimp only
    rw [h]
    rfl
  · intro h
    unfold ClaudeConfigService.deleteHookSvc
    dsimp only
    rw [h]
    rfl
  · intro c2 hf hex
    unfold ClaudeConfigService.deleteCommandSvc
    rw [hf]
    dsimp only
    rw [hex]
    rfl
  · intro hf
    unfold ClaudeConfigService.deleteCommandSvc
    rw [hf]
  · intro hf
    unfold ClaudeConfigService.deleteAgentSvc
    rw [hf]

theorem C8_notifications_witness :
    ClaudeConfigService.deleteAgentSvc (SvcState.mk none none [] []) "ghost".toList
      = (SvcState.mk none none [] [], []) :=
  (C8_notifications (SvcState.mk none none [] []) createDefaultSettings
    HookEvent.PreToolUse "x".toList "ghost".toList "d".toList "c".toList none
    none).2.2.2.2.2.2.2 (by decide)
